import Mathlib

/-!
Verification of the RustVoxelfun voxel chunk engine against its specification.

The development shallowly embeds the relevant Rust source files:
* terrain.rs : the per-chunk boolean voxel grid and the greedy box merger
  (Chunk, get_voxel, set_voxel, merge_voxels);
* chunk.rs   : the instanced-rendering chunk type with a dirty flag and
  cross-chunk solidity queries (Chunk, set_voxel, is_voxel_solid,
  is_voxel_solid_raycast);
* world.rs   : the streaming controller (World, update_chunks, process_queue);
* interaction.rs : the fixed-step raycaster and edit propagation
  (raycast, calculate_hit_normal, remove_voxel).

Rust Vec-backed arrays are modelled as List Bool with the exact index
arithmetic of the source; i32 becomes Int, usize becomes Nat, f32 time and
space coordinates become exact rationals.
-/

namespace VoxelFun

namespace Terrain

/-- terrain.rs Chunk: flat boolean voxel array indexed as
x + y*width + z*width*height.  The boxified scratch array that
merge_voxels refills before use is threaded through the merge as explicit
state below; last_accessed plays no role in any claim. -/
structure Chunk where
  voxels : List Bool
  width : Nat
  height : Nat
  depth : Nat
deriving DecidableEq

/-- terrain.rs Chunk::get_voxel: bounds-checked read, false out of bounds. -/
def get_voxel (c : Chunk) (x y z : Nat) : Bool :=
  if x < c.width ∧ y < c.height ∧ z < c.depth then
    c.voxels.getD (x + y * c.width + z * c.width * c.height) false
  else
    false

/-- terrain.rs Chunk::set_voxel: bounds-checked write, no-op out of bounds. -/
def set_voxel (c : Chunk) (x y z : Nat) (v : Bool) : Chunk :=
  if x < c.width ∧ y < c.height ∧ z < c.depth then
    { c with voxels := c.voxels.set (x + y * c.width + z * c.width * c.height) v }
  else
    c

/-- The flat index of an in-bounds coordinate is below the grid volume. -/
theorem index_lt_volume {w h d x y z : Nat} (hx : x < w) (hy : y < h) (hz : z < d) :
    x + y * w + z * w * h < w * h * d := by
  have h1 : x + y * w < w * h := by
    calc x + y * w < w + y * w := by omega
    _ = (y + 1) * w := by ring
    _ ≤ h * w := Nat.mul_le_mul_right w hy
    _ = w * h := Nat.mul_comm h w
  calc x + y * w + z * w * h < w * h + z * (w * h) := by
        have := Nat.mul_assoc z w h
        omega
    _ = (z + 1) * (w * h) := by ring
    _ ≤ d * (w * h) := Nat.mul_le_mul_right (w * h) hz
    _ = w * h * d := by ring

/-- Flat indexing is injective on in-bounds coordinates. -/
theorem index_inj {w h : Nat} {x y z x2 y2 z2 : Nat}
    (hx : x < w) (hy : y < h) (hx2 : x2 < w) (hy2 : y2 < h)
    (he : x + y * w + z * w * h = x2 + y2 * w + z2 * w * h) :
    x = x2 ∧ y = y2 ∧ z = z2 := by
  have hw : 0 < w := Nat.lt_of_le_of_lt (Nat.zero_le x) hx
  have hh : 0 < h := Nat.lt_of_le_of_lt (Nat.zero_le y) hy
  have key : ∀ a b c2 : Nat, a + b * w + c2 * w * h = a + w * (b + h * c2) := by
    intro a b c2; ring
  have e1 : x + w * (y + h * z) = x2 + w * (y2 + h * z2) := by
    rw [← key, ← key]; exact he
  have m1 : (x + w * (y + h * z)) % w = x % w := by
    rw [Nat.add_mul_mod_self_left]
  have m2 : (x2 + w * (y2 + h * z2)) % w = x2 % w := by
    rw [Nat.add_mul_mod_self_left]
  have hxe : x = x2 := by
    have := m1.symm.trans (e1 ▸ m2)
    rwa [Nat.mod_eq_of_lt hx, Nat.mod_eq_of_lt hx2] at this
  subst hxe
  have e2 : y + h * z = y2 + h * z2 := by
    have d1 : (x + w * (y + h * z)) / w = x / w + (y + h * z) := Nat.add_mul_div_left x _ hw
    have d2 : (x + w * (y2 + h * z2)) / w = x / w + (y2 + h * z2) := Nat.add_mul_div_left x _ hw
    have := d1.symm.trans (e1 ▸ d2)
    omega
  have m3 : (y + h * z) % h = y % h := by rw [Nat.add_mul_mod_self_left]
  have m4 : (y2 + h * z2) % h = y2 % h := by rw [Nat.add_mul_mod_self_left]
  have hye : y = y2 := by
    have := m3.symm.trans (e2 ▸ m4)
    rwa [Nat.mod_eq_of_lt hy, Nat.mod_eq_of_lt hy2] at this
  subst hye
  constructor
  · rfl
  constructor
  · rfl
  · have d3 : (y + h * z) / h = y / h + z := Nat.add_mul_div_left y _ hh
    have d4 : (y + h * z2) / h = y / h + z2 := Nat.add_mul_div_left y _ hh
    have := d3.symm.trans (e2 ▸ d4)
    omega

/-- C3: an in-bounds set_voxel followed by get_voxel at the same coordinate
returns the written value; an out-of-bounds get_voxel returns false and an
out-of-bounds set_voxel leaves the chunk unchanged. -/
theorem set_then_get (c : Chunk) (x y z : Nat) (v : Bool)
    (hlen : c.voxels.length = c.width * c.height * c.depth) :
    (x < c.width → y < c.height → z < c.depth →
       get_voxel (set_voxel c x y z v) x y z = v) ∧
    (¬(x < c.width ∧ y < c.height ∧ z < c.depth) →
       get_voxel c x y z = false ∧ set_voxel c x y z v = c) := by
  constructor
  · intro hx hy hz
    have hidx : x + y * c.width + z * c.width * c.height < c.voxels.length := by
      rw [hlen]; exact index_lt_volume hx hy hz
    simp only [get_voxel, set_voxel, if_pos (And.intro hx (And.intro hy hz))]
    rw [List.getD_eq_getElem?_getD, List.getElem?_set_self (by simpa using hidx)]
    rfl
  · intro hout
    constructor
    · simp only [get_voxel, if_neg hout]
    · simp only [set_voxel, if_neg hout]

/-- Concrete instance of the C3 theorem on a 2 x 2 x 2 grid. -/
theorem set_then_get_spot :
    get_voxel (set_voxel ⟨List.replicate 8 false, 2, 2, 2⟩ 1 0 1 true) 1 0 1 = true ∧
    get_voxel (⟨List.replicate 8 false, 2, 2, 2⟩ : Chunk) 5 0 0 = false :=
  ⟨(set_then_get ⟨List.replicate 8 false, 2, 2, 2⟩ 1 0 1 true (by decide)).1
      (by decide) (by decide) (by decide),
   ((set_then_get ⟨List.replicate 8 false, 2, 2, 2⟩ 5 0 0 true (by decide)).2
      (by decide)).1⟩

/-- A box emitted by merge_voxels: origin (x,y,z) and extents (nx,ny,nz),
exactly the 6-tuple returned by the Rust function. -/
abbrev Box := Nat × Nat × Nat × Nat × Nat × Nat

/-- terrain.rs Chunk::get_box_index. -/
def get_box_index (c : Chunk) (x y z : Nat) : Nat :=
  x + y * c.width + z * c.width * c.height

/-- Decidable membership of a voxel coordinate in a box. -/
def containsB (b : Box) (x y z : Nat) : Bool :=
  decide (b.1 ≤ x ∧ x < b.1 + b.2.2.2.1) &&
  decide (b.2.1 ≤ y ∧ y < b.2.1 + b.2.2.2.2.1) &&
  decide (b.2.2.1 ≤ z ∧ z < b.2.2.1 + b.2.2.2.2.2)

/-- Length of the initial run of positions s, s+1, ... satisfying p, limited
by the remaining loop fuel; embeds the break-on-failure loops of
merge_voxels. -/
def extendRun (p : Nat → Bool) : Nat → Nat → Nat
  | _, 0 => 0
  | s, fuel + 1 => if p s then extendRun p (s + 1) fuel + 1 else 0

/-- The cells of a box, in the nested loop order used when marking voxels
as boxified. -/
def boxCells (x y z nx ny nz : Nat) : List (Nat × Nat × Nat) :=
  (List.range nx).flatMap fun i =>
    (List.range ny).flatMap fun j =>
      (List.range nz).map fun k => (x + i, y + j, z + k)

/-- Pointwise update of the boxified array. -/
def setTrue (b : Nat → Bool) (n : Nat) : Nat → Bool :=
  fun m => if m = n then true else b m

/-- State threaded through the merge_voxels scan: the boxified scratch
array (as a function of the flat index) and the boxes emitted so far. -/
structure MergeState where
  boxified : Nat → Bool
  boxes : List Box

/-- Whether a voxel is solid and not yet claimed, the condition tested by
every extension loop in merge_voxels. -/
def cellFree (c : Chunk) (b : Nat → Bool) (x y z : Nat) : Bool :=
  get_voxel c x y z && !(b (get_box_index c x y z))

/-- One iteration of the merge_voxels scan at position (x,y,z): if the
voxel is solid and unclaimed, grow the box along x, then y, then z, mark
its cells as boxified and emit it; otherwise leave the state unchanged. -/
def mergeStep (c : Chunk) (st : MergeState) (pos : Nat × Nat × Nat) : MergeState :=
  let x := pos.1
  let y := pos.2.1
  let z := pos.2.2
  if cellFree c st.boxified x y z then
    let b := st.boxified
    let nx := 1 + extendRun (fun i => cellFree c b i y z) (x + 1) (c.width - (x + 1))
    let ny := 1 + extendRun
        (fun j => (List.range nx).all fun i => cellFree c b (x + i) j z)
        (y + 1) (c.height - (y + 1))
    let nz := 1 + extendRun
        (fun k => (List.range nx).all fun i =>
          (List.range ny).all fun j => cellFree c b (x + i) (y + j) k)
        (z + 1) (c.depth - (z + 1))
    { boxified := (boxCells x y z nx ny nz).foldl
        (fun bb q => setTrue bb (get_box_index c q.1 q.2.1 q.2.2)) st.boxified,
      boxes := st.boxes ++ [(x, y, z, nx, ny, nz)] }
  else
    st

/-- The scan order of merge_voxels: x outer, y middle, z inner. -/
def scanOrder (w h d : Nat) : List (Nat × Nat × Nat) :=
  (List.range w).flatMap fun x =>
    (List.range h).flatMap fun y =>
      (List.range d).map fun z => (x, y, z)

/-- terrain.rs Chunk::merge_voxels: greedy box decomposition of the solid
voxels.  The boxified array starts from all-false (the source fills it
with false before scanning). -/
def merge_voxels (c : Chunk) : List Box :=
  ((scanOrder c.width c.height c.depth).foldl (mergeStep c)
    { boxified := fun _ => false, boxes := [] }).boxes

/-- In-bounds predicate for a voxel coordinate of a chunk. -/
def InB (c : Chunk) (x y z : Nat) : Prop :=
  x < c.width ∧ y < c.height ∧ z < c.depth

/-- Well-formedness of an emitted box: positive extents, contained in the
grid bounds. -/
def BoxWF (c : Chunk) (b : Box) : Prop :=
  0 < b.2.2.2.1 ∧ 0 < b.2.2.2.2.1 ∧ 0 < b.2.2.2.2.2 ∧
  b.1 + b.2.2.2.1 ≤ c.width ∧ b.2.1 + b.2.2.2.2.1 ≤ c.height ∧
  b.2.2.1 + b.2.2.2.2.2 ≤ c.depth

theorem extendRun_le_fuel (p : Nat → Bool) : ∀ s fuel, extendRun p s fuel ≤ fuel := by
  intro s fuel
  induction fuel generalizing s with
  | zero => simp [extendRun]
  | succ n ih =>
    simp only [extendRun]
    split
    · exact Nat.succ_le_succ (ih (s + 1))
    · exact Nat.zero_le _

theorem extendRun_sound (p : Nat → Bool) :
    ∀ fuel s i, i < extendRun p s fuel → p (s + i) = true := by
  intro fuel
  induction fuel with
  | zero => intro s i h; simp [extendRun] at h
  | succ n ih =>
    intro s i h
    simp only [extendRun] at h
    by_cases hp : p s
    · rw [if_pos hp] at h
      cases i with
      | zero => simpa using hp
      | succ i2 =>
        have := ih (s + 1) i2 (by omega)
        have harith : s + 1 + i2 = s + (i2 + 1) := by omega
        rwa [harith] at this
    · rw [if_neg hp] at h; omega

theorem extendRun_full (p : Nat → Bool) :
    ∀ fuel s, (∀ i < fuel, p (s + i) = true) → extendRun p s fuel = fuel := by
  intro fuel
  induction fuel with
  | zero => intro s _; simp [extendRun]
  | succ n ih =>
    intro s hall
    have hp : p s = true := by simpa using hall 0 (by omega)
    simp only [extendRun, if_pos hp]
    have : extendRun p (s + 1) n = n := by
      apply ih
      intro i hi
      have := hall (i + 1) (by omega)
      have harith : s + (i + 1) = s + 1 + i := by omega
      rwa [harith] at this
    omega

theorem mem_boxCells {x y z nx ny nz a b2 c2 : Nat} :
    (a, b2, c2) ∈ boxCells x y z nx ny nz ↔
      (x ≤ a ∧ a < x + nx) ∧ (y ≤ b2 ∧ b2 < y + ny) ∧ (z ≤ c2 ∧ c2 < z + nz) := by
  simp only [boxCells, List.mem_flatMap, List.mem_map, List.mem_range]
  constructor
  · rintro ⟨i, hi, j, hj, k, hk, heq⟩
    obtain ⟨h1, h2, h3⟩ : x + i = a ∧ y + j = b2 ∧ z + k = c2 := by
      simpa [Prod.ext_iff] using heq
    omega
  · rintro ⟨⟨ha1, ha2⟩, ⟨hb1, hb2⟩, ⟨hc1, hc2⟩⟩
    exact ⟨a - x, by omega, b2 - y, by omega, c2 - z, by omega,
      by simp [Prod.ext_iff]; omega⟩

theorem foldl_setTrue (c : Chunk) (l : List (Nat × Nat × Nat)) (b : Nat → Bool) (m : Nat) :
    (l.foldl (fun bb q => setTrue bb (get_box_index c q.1 q.2.1 q.2.2)) b) m =
      (b m || l.any fun q => m = get_box_index c q.1 q.2.1 q.2.2) := by
  induction l generalizing b with
  | nil => simp
  | cons q l ih =>
    simp only [List.foldl_cons, List.any_cons, ih, setTrue]
    by_cases hm : m = get_box_index c q.1 q.2.1 q.2.2
    · simp [hm]
    · simp [hm]

theorem mem_scanOrder {w h d : Nat} {pos : Nat × Nat × Nat} :
    pos ∈ scanOrder w h d ↔ pos.1 < w ∧ pos.2.1 < h ∧ pos.2.2 < d := by
  obtain ⟨a, b2, c2⟩ := pos
  simp only [scanOrder, List.mem_flatMap, List.mem_map, List.mem_range]
  constructor
  · rintro ⟨i, hi, j, hj, k, hk, heq⟩
    obtain ⟨h1, h2, h3⟩ : i = a ∧ j = b2 ∧ k = c2 := by
      simpa [Prod.ext_iff] using heq
    subst h1; subst h2; subst h3
    exact ⟨hi, hj, hk⟩
  · rintro ⟨ha, hb, hc⟩
    exact ⟨a, ha, b2, hb, c2, hc, rfl⟩

/-- The merge invariant: every emitted box is well-formed and made of solid
voxels, and the boxified array counts box coverage exactly (a cell is
boxified iff exactly one box covers it, otherwise no box covers it). -/
def Inv (c : Chunk) (st : MergeState) : Prop :=
  (∀ b ∈ st.boxes, BoxWF c b ∧
    ∀ x y z, containsB b x y z = true → get_voxel c x y z = true) ∧
  (∀ x y z, InB c x y z →
    st.boxes.countP (fun b => containsB b x y z) =
      (if st.boxified (get_box_index c x y z) then 1 else 0))

theorem containsB_iff {bx b2y bz nx ny nz a b2 c2 : Nat} :
    containsB (bx, b2y, bz, nx, ny, nz) a b2 c2 = true ↔
      (bx ≤ a ∧ a < bx + nx) ∧ (b2y ≤ b2 ∧ b2 < b2y + ny) ∧ (bz ≤ c2 ∧ c2 < bz + nz) := by
  simp [containsB, Bool.and_eq_true, decide_eq_true_eq, and_assoc]

theorem cellFree_parts {c : Chunk} {b : Nat → Bool} {x y z : Nat}
    (h : cellFree c b x y z = true) :
    get_voxel c x y z = true ∧ b (get_box_index c x y z) = false := by
  simp only [cellFree, Bool.and_eq_true, Bool.not_eq_true'] at h
  exact h

theorem BoxWF_mk {c : Chunk} {bx b2y bz nx ny nz : Nat} :
    BoxWF c (bx, b2y, bz, nx, ny, nz) ↔
      0 < nx ∧ 0 < ny ∧ 0 < nz ∧
      bx + nx ≤ c.width ∧ b2y + ny ≤ c.height ∧ bz + nz ≤ c.depth :=
  Iff.rfl

theorem mergeStep_inv (c : Chunk) (st : MergeState) (pos : Nat × Nat × Nat)
    (hpos : InB c pos.1 pos.2.1 pos.2.2) (hinv : Inv c st) :
    Inv c (mergeStep c st pos) ∧
    (∀ n, st.boxified n = true → (mergeStep c st pos).boxified n = true) ∧
    (get_voxel c pos.1 pos.2.1 pos.2.2 = true →
      (mergeStep c st pos).boxified (get_box_index c pos.1 pos.2.1 pos.2.2) = true) := by
  obtain ⟨x, y, z⟩ := pos
  obtain ⟨hx, hy, hz⟩ := hpos
  have hx : x < c.width := hx
  have hy : y < c.height := hy
  have hz : z < c.depth := hz
  by_cases hfree : cellFree c st.boxified x y z = true
  · -- a new box is grown and emitted
    set b := st.boxified with hb
    set nx := 1 + extendRun (fun i => cellFree c b i y z) (x + 1) (c.width - (x + 1)) with hnx
    set ny := 1 + extendRun
        (fun j => (List.range nx).all fun i => cellFree c b (x + i) j z)
        (y + 1) (c.height - (y + 1)) with hny
    set nz := 1 + extendRun
        (fun k => (List.range nx).all fun i =>
          (List.range ny).all fun j => cellFree c b (x + i) (y + j) k)
        (z + 1) (c.depth - (z + 1)) with hnz
    have hstep : mergeStep c st (x, y, z) =
        { boxified := (boxCells x y z nx ny nz).foldl
            (fun bb q => setTrue bb (get_box_index c q.1 q.2.1 q.2.2)) st.boxified,
          boxes := st.boxes ++ [(x, y, z, nx, ny, nz)] } := by
      simp only [mergeStep, hfree, if_pos]
    -- the x-run of the new box is free
    have hrow : ∀ i < nx, cellFree c b (x + i) y z = true := by
      intro i hi
      cases i with
      | zero => simpa using hfree
      | succ i2 =>
        have hs := extendRun_sound (fun i => cellFree c b i y z)
          (c.width - (x + 1)) (x + 1) i2 (by omega)
        have harith : x + 1 + i2 = x + (i2 + 1) := by omega
        simpa [harith] using hs
    -- every x-row of the new slab is free
    have hslab : ∀ i < nx, ∀ j < ny, cellFree c b (x + i) (y + j) z = true := by
      intro i hi j hj
      cases j with
      | zero => simpa using hrow i hi
      | succ j2 =>
        have hs := extendRun_sound
          (fun j => (List.range nx).all fun i => cellFree c b (x + i) j z)
          (c.height - (y + 1)) (y + 1) j2 (by omega)
        rw [List.all_eq_true] at hs
        have := hs i (List.mem_range.mpr hi)
        have harith : y + 1 + j2 = y + (j2 + 1) := by omega
        simpa [harith] using this
    -- every cell of the new box is free
    have hcell : ∀ i < nx, ∀ j < ny, ∀ k < nz, cellFree c b (x + i) (y + j) (z + k) = true := by
      intro i hi j hj k hk
      cases k with
      | zero => simpa using hslab i hi j hj
      | succ k2 =>
        have hs := extendRun_sound
          (fun k => (List.range nx).all fun i =>
            (List.range ny).all fun j => cellFree c b (x + i) (y + j) k)
          (c.depth - (z + 1)) (z + 1) k2 (by omega)
        rw [List.all_eq_true] at hs
        have h2 := hs i (List.mem_range.mpr hi)
        rw [List.all_eq_true] at h2
        have := h2 j (List.mem_range.mpr hj)
        have harith : z + 1 + k2 = z + (k2 + 1) := by omega
        simpa [harith] using this
    -- bounds of the new box
    have hxb : x + nx ≤ c.width := by
      have := extendRun_le_fuel (fun i => cellFree c b i y z) (x + 1) (c.width - (x + 1))
      omega
    have hyb : y + ny ≤ c.height := by
      have := extendRun_le_fuel
        (fun j => (List.range nx).all fun i => cellFree c b (x + i) j z)
        (y + 1) (c.height - (y + 1))
      omega
    have hzb : z + nz ≤ c.depth := by
      have := extendRun_le_fuel
        (fun k => (List.range nx).all fun i =>
          (List.range ny).all fun j => cellFree c b (x + i) (y + j) k)
        (z + 1) (c.depth - (z + 1))
      omega
    -- containment in the new box, phrased on raw coordinates
    have hcontains : ∀ a a2 a3, containsB (x, y, z, nx, ny, nz) a a2 a3 = true →
        cellFree c b a a2 a3 = true := by
      intro a a2 a3 hc
      rw [containsB_iff] at hc
      have := hcell (a - x) (by omega) (a2 - y) (by omega) (a3 - z) (by omega)
      have he1 : x + (a - x) = a := by omega
      have he2 : y + (a2 - y) = a2 := by omega
      have he3 : z + (a3 - z) = a3 := by omega
      rwa [he1, he2, he3] at this
    -- the marked boxified array, pointwise on in-bounds coordinates
    have hmark : ∀ a a2 a3, a < c.width → a2 < c.height → a3 < c.depth →
        (mergeStep c st (x, y, z)).boxified (get_box_index c a a2 a3) =
          (b (get_box_index c a a2 a3) || containsB (x, y, z, nx, ny, nz) a a2 a3) := by
      intro a a2 a3 ha ha2 _
      rw [hstep]
      simp only [foldl_setTrue]
      congr 1
      by_cases hc : containsB (x, y, z, nx, ny, nz) a a2 a3 = true
      · rw [hc, List.any_eq_true]
        refine ⟨(a, a2, a3), ?_, by simp⟩
        rw [containsB_iff] at hc
        exact mem_boxCells.mpr hc
      · rw [Bool.not_eq_true] at hc
        rw [hc]
        rw [List.any_eq_false]
        rintro ⟨q1, q2, q3⟩ hq
        rw [mem_boxCells] at hq
        intro heq
        have heq2 : get_box_index c a a2 a3 =
            get_box_index c (q1, q2, q3).1 (q1, q2, q3).2.1 (q1, q2, q3).2.2 :=
          of_decide_eq_true heq
        have hq1w : q1 < c.width := by omega
        have hq2h : q2 < c.height := by omega
        obtain ⟨e1, e2, e3⟩ := index_inj ha ha2 hq1w hq2h heq2
        subst e1; subst e2; subst e3
        have hcc : containsB (x, y, z, nx, ny, nz) a a2 a3 = true := by
          rw [containsB_iff]
          exact ⟨⟨by omega, by omega⟩, ⟨by omega, by omega⟩, ⟨by omega, by omega⟩⟩
        rw [hc] at hcc
        exact Bool.false_ne_true hcc
    refine ⟨⟨?_, ?_⟩, ?_, ?_⟩
    · -- boxes remain well-formed and solid
      rw [hstep]
      intro bb hbb
      simp only [List.mem_append, List.mem_singleton] at hbb
      rcases hbb with hold | hnew
      · exact hinv.1 bb hold
      · subst hnew
        refine ⟨BoxWF_mk.mpr ⟨by omega, by omega, by omega, hxb, hyb, hzb⟩, ?_⟩
        intro a a2 a3 hc
        exact (cellFree_parts (hcontains a a2 a3 hc)).1
    · -- coverage count matches the boxified array
      intro a a2 a3 hin
      obtain ⟨ha, ha2, ha3⟩ := hin
      have hcnt : (mergeStep c st (x, y, z)).boxes.countP
          (fun bb => containsB bb a a2 a3) =
          st.boxes.countP (fun bb => containsB bb a a2 a3) +
            (if containsB (x, y, z, nx, ny, nz) a a2 a3 then 1 else 0) := by
        rw [hstep]
        simp [List.countP_append, List.countP_cons]
      rw [hcnt, hmark a a2 a3 ha ha2 ha3]
      by_cases hc : containsB (x, y, z, nx, ny, nz) a a2 a3 = true
      · have hfree2 := cellFree_parts (hcontains a a2 a3 hc)
        have hold := hinv.2 a a2 a3 ⟨ha, ha2, ha3⟩
        rw [← hb, hfree2.2] at hold
        simp only [Bool.false_eq_true, if_false] at hold
        rw [hfree2.2, hc, hold]
        simp
      · rw [Bool.not_eq_true] at hc
        rw [hc]
        have hold := hinv.2 a a2 a3 ⟨ha, ha2, ha3⟩
        rw [← hb] at hold
        simpa using hold
    · -- boxified is monotone
      intro n hn
      rw [hstep]
      have hn2 : st.boxified n = true := hn
      simp only [foldl_setTrue, hn2, Bool.true_or]
    · -- the scanned cell itself ends up boxified
      intro _
      rw [hmark x y z hx hy hz]
      have : containsB (x, y, z, nx, ny, nz) x y z = true := by
        rw [containsB_iff]
        refine ⟨⟨Nat.le_refl x, by omega⟩, ⟨Nat.le_refl y, by omega⟩, ⟨Nat.le_refl z, by omega⟩⟩
      rw [this]
      simp
  · -- the cell is skipped: either empty or already claimed
    have hstep : mergeStep c st (x, y, z) = st := by
      simp only [mergeStep]
      rw [if_neg hfree]
    rw [hstep]
    refine ⟨hinv, fun n hn => hn, ?_⟩
    intro hsolid
    simp only [cellFree, hsolid, Bool.true_and, Bool.not_eq_true',
      Bool.not_eq_true] at hfree
    simpa using hfree

theorem foldl_merge_inv (c : Chunk) (l : List (Nat × Nat × Nat)) (st : MergeState)
    (hl : ∀ pos ∈ l, InB c pos.1 pos.2.1 pos.2.2) (hinv : Inv c st) :
    Inv c (l.foldl (mergeStep c) st) ∧
    (∀ n, st.boxified n = true → (l.foldl (mergeStep c) st).boxified n = true) ∧
    (∀ pos ∈ l, get_voxel c pos.1 pos.2.1 pos.2.2 = true →
      (l.foldl (mergeStep c) st).boxified (get_box_index c pos.1 pos.2.1 pos.2.2) = true) := by
  induction l generalizing st with
  | nil => exact ⟨hinv, fun n hn => hn, by simp⟩
  | cons q l ih =>
    have hq := hl q (List.mem_cons_self q l)
    have hstep := mergeStep_inv c st q hq hinv
    have hrest := ih (mergeStep c st q) (fun p hp => hl p (List.mem_cons_of_mem q hp)) hstep.1
    refine ⟨hrest.1, ?_, ?_⟩
    · intro n hn
      exact hrest.2.1 n (hstep.2.1 n hn)
    · intro p hp hsolid
      rcases List.mem_cons.mp hp with hpe | hpl
      · subst hpe
        exact hrest.2.1 _ (hstep.2.2 hsolid)
      · exact hrest.2.2 p hpl hsolid

theorem pairwise_disjoint_of_count_le_one (c : Chunk) (l : List Box)
    (hWF : ∀ b ∈ l, BoxWF c b)
    (hcnt : ∀ x y z, InB c x y z → l.countP (fun b => containsB b x y z) ≤ 1) :
    l.Pairwise (fun b1 b2 => ∀ x y z,
      ¬(containsB b1 x y z = true ∧ containsB b2 x y z = true)) := by
  induction l with
  | nil => exact List.Pairwise.nil
  | cons b l ih =>
    refine List.Pairwise.cons ?_ ?_
    · intro b2 hb2 x y z hboth
      obtain ⟨h1, h2⟩ := hboth
      have hb : InB c x y z := by
        obtain ⟨bx, b2y, bz, nx, ny, nz⟩ := b
        have hwf := hWF _ (List.mem_cons_self _ l)
        rw [BoxWF_mk] at hwf
        rw [containsB_iff] at h1
        exact ⟨by omega, by omega, by omega⟩
      have hcount := hcnt x y z hb
      rw [List.countP_cons_of_pos _ _ (by simpa using h1)] at hcount
      have hpos : 0 < l.countP (fun bb => containsB bb x y z) :=
        List.countP_pos_iff.mpr ⟨b2, hb2, by simpa using h2⟩
      omega
    · refine ih (fun bb hbb => hWF bb (List.mem_cons_of_mem b hbb)) ?_
      intro x y z hin
      have := hcnt x y z hin
      rw [List.countP_cons] at this
      omega

/-- C1: merge_voxels is an exact cover of the solid voxels: every emitted
box is in bounds and contains only solid voxels, distinct boxes never
overlap, and each in-bounds coordinate is covered by exactly one box when
solid and by no box when empty (so occupancy is reconstructible from the
boxes). -/
theorem merge_voxels_exact_cover (c : Chunk) :
    (∀ b ∈ merge_voxels c, BoxWF c b ∧
      ∀ x y z, containsB b x y z = true → get_voxel c x y z = true) ∧
    List.Pairwise (fun b1 b2 => ∀ x y z,
      ¬(containsB b1 x y z = true ∧ containsB b2 x y z = true)) (merge_voxels c) ∧
    (∀ x y z, InB c x y z →
      (merge_voxels c).countP (fun b => containsB b x y z) =
        (if get_voxel c x y z then 1 else 0)) := by
  have hinit : Inv c { boxified := fun _ => false, boxes := [] } := by
    constructor
    · intro b hb; simp at hb
    · intro x y z _; simp
  have hfold := foldl_merge_inv c (scanOrder c.width c.height c.depth)
    { boxified := fun _ => false, boxes := [] }
    (fun pos hpos => mem_scanOrder.mp hpos) hinit
  set stf := (scanOrder c.width c.height c.depth).foldl (mergeStep c)
    { boxified := fun _ => false, boxes := [] } with hstf
  have hcover : ∀ x y z, InB c x y z →
      stf.boxes.countP (fun b => containsB b x y z) =
        (if get_voxel c x y z then 1 else 0) := by
    intro x y z hin
    have hiff := hfold.1.2 x y z hin
    by_cases hsolid : get_voxel c x y z = true
    · have hboxed := hfold.2.2 (x, y, z) (mem_scanOrder.mpr ⟨hin.1, hin.2.1, hin.2.2⟩) hsolid
      rw [hboxed] at hiff
      simpa [hsolid] using hiff
    · have hnotboxed : stf.boxified (get_box_index c x y z) = false := by
        by_contra hbx
        rw [Bool.not_eq_false] at hbx
        rw [hbx] at hiff
        simp only [if_true] at hiff
        have := List.countP_pos_iff.mp (by omega : 0 < stf.boxes.countP
          (fun b => containsB b x y z))
        obtain ⟨bb, hbb, hcc⟩ := this
        exact hsolid ((hfold.1.1 bb hbb).2 x y z (by simpa using hcc))
      rw [hnotboxed] at hiff
      simp only [Bool.false_eq_true, if_false] at hiff
      rw [Bool.not_eq_true] at hsolid
      simpa [hsolid] using hiff
  refine ⟨?_, ?_, hcover⟩
  · exact fun b hb => hfold.1.1 b hb
  · refine pairwise_disjoint_of_count_le_one c stf.boxes
      (fun b hb => (hfold.1.1 b hb).1) ?_
    intro x y z hin
    rw [hcover x y z hin]
    split <;> omega

/-- Concrete instance of the C1 theorem: on a 2 x 2 x 1 grid with three
solid voxels, each solid voxel is covered exactly once and the empty one
is uncovered. -/
theorem merge_voxels_exact_cover_spot :
    (merge_voxels ⟨[true, true, true, false], 2, 2, 1⟩).countP
        (fun b => containsB b 0 0 0) = 1 ∧
    (merge_voxels ⟨[true, true, true, false], 2, 2, 1⟩).countP
        (fun b => containsB b 1 1 0) = 0 := by
  constructor
  · exact ((merge_voxels_exact_cover ⟨[true, true, true, false], 2, 2, 1⟩).2.2
      0 0 0 ⟨by decide, by decide, by decide⟩).trans (by decide)
  · exact ((merge_voxels_exact_cover ⟨[true, true, true, false], 2, 2, 1⟩).2.2
      1 1 0 ⟨by decide, by decide, by decide⟩).trans (by decide)

theorem mergeStep_skip (c : Chunk) (st : MergeState) (pos : Nat × Nat × Nat)
    (hbox : st.boxified (get_box_index c pos.1 pos.2.1 pos.2.2) = true) :
    mergeStep c st pos = st := by
  have hfree : cellFree c st.boxified pos.1 pos.2.1 pos.2.2 = false := by
    simp [cellFree, hbox]
  simp only [mergeStep, hfree]
  simp

theorem foldl_merge_skip (c : Chunk) (l : List (Nat × Nat × Nat)) (st : MergeState)
    (hcov : ∀ pos ∈ l, st.boxified (get_box_index c pos.1 pos.2.1 pos.2.2) = true) :
    l.foldl (mergeStep c) st = st := by
  induction l with
  | nil => rfl
  | cons q l ih =>
    rw [List.foldl_cons, mergeStep_skip c st q (hcov q (List.mem_cons_self q l))]
    exact ih fun p hp => hcov p (List.mem_cons_of_mem q hp)

theorem scanOrder_head (w h d : Nat) (hw : 0 < w) (hh : 0 < h) (hd : 0 < d) :
    ∃ rest, scanOrder w h d = (0, 0, 0) :: rest := by
  obtain ⟨w2, rfl⟩ : ∃ w2, w = w2 + 1 := ⟨w - 1, by omega⟩
  obtain ⟨h2, rfl⟩ : ∃ h2, h = h2 + 1 := ⟨h - 1, by omega⟩
  obtain ⟨d2, rfl⟩ : ∃ d2, d = d2 + 1 := ⟨d - 1, by omega⟩
  simp only [scanOrder, List.range_succ_eq_map, List.flatMap_cons, List.map_cons,
    List.cons_append]
  exact ⟨_, rfl⟩

theorem mergeStep_all_solid_zero (c : Chunk)
    (hw : 0 < c.width) (hh : 0 < c.height) (hd : 0 < c.depth)
    (hsolid : ∀ x < c.width, ∀ y < c.height, ∀ z < c.depth, get_voxel c x y z = true) :
    mergeStep c { boxified := fun _ => false, boxes := [] } (0, 0, 0) =
      { boxified := (boxCells 0 0 0 c.width c.height c.depth).foldl
          (fun bb q => setTrue bb (get_box_index c q.1 q.2.1 q.2.2)) (fun _ => false),
        boxes := [(0, 0, 0, c.width, c.height, c.depth)] } := by
  have hfree : cellFree c (fun _ => false) 0 0 0 = true := by
    simp [cellFree, hsolid 0 hw 0 hh 0 hd]
  simp only [mergeStep, hfree, if_pos]
  have h1 : extendRun (fun i => cellFree c (fun _ => false) i 0 0)
      (0 + 1) (c.width - (0 + 1)) = c.width - (0 + 1) := by
    apply extendRun_full
    intro i hi
    simp [cellFree, hsolid (0 + 1 + i) (by omega) 0 hh 0 hd]
  rw [h1]
  have hnx : 1 + (c.width - (0 + 1)) = c.width := by omega
  rw [hnx]
  have h2 : extendRun
      (fun j => (List.range c.width).all fun i => cellFree c (fun _ => false) (0 + i) j 0)
      (0 + 1) (c.height - (0 + 1)) = c.height - (0 + 1) := by
    apply extendRun_full
    intro j hj
    rw [List.all_eq_true]
    intro i hi
    have hiw := List.mem_range.mp hi
    have hs : get_voxel c i (1 + j) 0 = true := hsolid i hiw (1 + j) (by omega) 0 hd
    simp [cellFree, hs]
  rw [h2]
  have hny : 1 + (c.height - (0 + 1)) = c.height := by omega
  rw [hny]
  have h3 : extendRun
      (fun k => (List.range c.width).all fun i =>
        (List.range c.height).all fun j => cellFree c (fun _ => false) (0 + i) (0 + j) k)
      (0 + 1) (c.depth - (0 + 1)) = c.depth - (0 + 1) := by
    apply extendRun_full
    intro k hk
    rw [List.all_eq_true]
    intro i hi
    rw [List.all_eq_true]
    intro j hj
    have hiw := List.mem_range.mp hi
    have hjh := List.mem_range.mp hj
    have hs : get_voxel c i j (1 + k) = true := hsolid i hiw j hjh (1 + k) (by omega)
    simp [cellFree, hs]
  rw [h3]
  have hnz : 1 + (c.depth - (0 + 1)) = c.depth := by omega
  rw [hnz]
  simp

/-- C2: on an all-solid grid with positive dimensions, merge_voxels emits
exactly one box, with origin (0,0,0) and extents (width, height, depth). -/
theorem merge_voxels_all_solid (c : Chunk)
    (hw : 0 < c.width) (hh : 0 < c.height) (hd : 0 < c.depth)
    (hsolid : ∀ x < c.width, ∀ y < c.height, ∀ z < c.depth, get_voxel c x y z = true) :
    merge_voxels c = [(0, 0, 0, c.width, c.height, c.depth)] := by
  obtain ⟨rest, hso⟩ := scanOrder_head c.width c.height c.depth hw hh hd
  unfold merge_voxels
  rw [hso, List.foldl_cons, mergeStep_all_solid_zero c hw hh hd hsolid]
  rw [foldl_merge_skip]
  intro pos hpos
  have hposmem : pos ∈ scanOrder c.width c.height c.depth := by
    rw [hso]; exact List.mem_cons_of_mem _ hpos
  have hin := mem_scanOrder.mp hposmem
  dsimp only
  rw [foldl_setTrue]
  simp only [Bool.false_or]
  rw [List.any_eq_true]
  refine ⟨(pos.1, pos.2.1, pos.2.2), ?_, by simp⟩
  exact mem_boxCells.mpr ⟨⟨by omega, by omega⟩, ⟨by omega, by omega⟩, ⟨by omega, by omega⟩⟩

/-- Concrete instance of the C2 theorem on an all-solid 2 x 2 x 2 grid. -/
theorem merge_voxels_all_solid_spot :
    merge_voxels ⟨List.replicate 8 true, 2, 2, 2⟩ = [(0, 0, 0, 2, 2, 2)] :=
  merge_voxels_all_solid ⟨List.replicate 8 true, 2, 2, 2⟩
    (by decide) (by decide) (by decide) (by decide)

end Terrain

/-- An integer chunk coordinate (bevy IVec3). -/
abbrev Coord := Int × Int × Int

namespace ChunkMod

/-- chunk.rs CHUNK_SIZE. -/
def CHUNK_SIZE : Int := 16

/-- chunk.rs TERRAIN_HEIGHT. -/
def TERRAIN_HEIGHT : Nat := 64

/-- chunk.rs Chunk: per-chunk voxel grid with position, a dirty flag and
flat boolean storage (x + y*width + z*width*height, u32 dims as Nat,
i32 access coordinates as Int).  The cached_instance_data field plays no
role in any claim and is omitted. -/
structure Chunk where
  position : Coord
  width : Nat
  height : Nat
  depth : Nat
  voxels : List Bool
  dirty : Bool
deriving DecidableEq

/-- The stored voxel value at an (assumed in-bounds) i32 coordinate, with
the flat index computation of chunk.rs. -/
def voxelAt (c : Chunk) (x y z : Int) : Bool :=
  c.voxels.getD
    (x + y * (c.width : Int) + z * (c.width : Int) * (c.height : Int)).toNat false

/-- chunk.rs Chunk::set_voxel: in-bounds writes store the value and set the
dirty flag only when the stored value actually changes; out-of-bounds
writes are no-ops.  The Rust function returns unit. -/
def set_voxel (c : Chunk) (x y z : Int) (is_solid : Bool) : Chunk :=
  if 0 ≤ x ∧ x < (c.width : Int) ∧ 0 ≤ y ∧ y < (c.height : Int) ∧
      0 ≤ z ∧ z < (c.depth : Int) then
    if voxelAt c x y z ≠ is_solid then
      { c with
        voxels := c.voxels.set
          (x + y * (c.width : Int) + z * (c.width : Int) * (c.height : Int)).toNat
          is_solid,
        dirty := true }
    else c
  else c

/-- The unit value returned to the caller of chunk.rs Chunk::set_voxel. -/
def set_voxel_ret (c : Chunk) (x y z : Int) (is_solid : Bool) : Chunk × Unit :=
  (set_voxel c x y z is_solid, ())

/-- chunk.rs Chunk::remove_voxel. -/
def remove_voxel (c : Chunk) (x y z : Int) : Chunk :=
  set_voxel c x y z false

/-- The neighbor-slot classification of chunk.rs is_voxel_solid: the match
over the per-axis offset triple; any diagonal (edge or corner) combination
falls through to none. -/
def neighborIndex (cx cy cz : Int) : Option (Fin 6) :=
  if cx = -1 ∧ cy = 0 ∧ cz = 0 then some 0
  else if cx = 1 ∧ cy = 0 ∧ cz = 0 then some 1
  else if cx = 0 ∧ cy = -1 ∧ cz = 0 then some 2
  else if cx = 0 ∧ cy = 1 ∧ cz = 0 then some 3
  else if cx = 0 ∧ cy = 0 ∧ cz = -1 then some 4
  else if cx = 0 ∧ cy = 0 ∧ cz = 1 then some 5
  else none

/-- chunk.rs Chunk::is_voxel_solid: in-bounds coordinates read the local
grid; face-adjacent out-of-bounds coordinates consult the corresponding
neighbor (Rust % is truncated remainder, rem_euclid is euclidean);
diagonal out-of-bounds coordinates and absent neighbors read as air. -/
def is_voxel_solid (c : Chunk) (x y z : Int) (neighbors : Fin 6 → Option Chunk) : Bool :=
  if 0 ≤ x ∧ x < (c.width : Int) ∧ 0 ≤ y ∧ y < (c.height : Int) ∧
      0 ≤ z ∧ z < (c.depth : Int) then
    voxelAt c x y z
  else
    let cx : Int := if x < 0 then -1 else if x ≥ CHUNK_SIZE then 1 else 0
    let cy : Int := if y < 0 then -1 else if y ≥ (c.height : Int) then 1 else 0
    let cz : Int := if z < 0 then -1 else if z ≥ CHUNK_SIZE then 1 else 0
    match neighborIndex cx cy cz with
    | none => false
    | some i =>
      match neighbors i with
      | none => false
      | some nb =>
        let nx := Int.tmod (x + CHUNK_SIZE) CHUNK_SIZE
        let ny := Int.emod y (c.height : Int)
        let nz := Int.tmod (z + CHUNK_SIZE) CHUNK_SIZE
        nb.voxels.getD
          (nx + ny * CHUNK_SIZE + nz * CHUNK_SIZE * (nb.height : Int)).toNat false

/-- chunk.rs Chunk::is_voxel_solid_raycast: identical to is_voxel_solid up
to debug logging. -/
def is_voxel_solid_raycast (c : Chunk) (x y z : Int)
    (neighbors : Fin 6 → Option Chunk) : Bool :=
  if 0 ≤ x ∧ x < (c.width : Int) ∧ 0 ≤ y ∧ y < (c.height : Int) ∧
      0 ≤ z ∧ z < (c.depth : Int) then
    voxelAt c x y z
  else
    let cx : Int := if x < 0 then -1 else if x ≥ CHUNK_SIZE then 1 else 0
    let cy : Int := if y < 0 then -1 else if y ≥ (c.height : Int) then 1 else 0
    let cz : Int := if z < 0 then -1 else if z ≥ CHUNK_SIZE then 1 else 0
    match neighborIndex cx cy cz with
    | none => false
    | some i =>
      match neighbors i with
      | none => false
      | some nb =>
        let nx := Int.tmod (x + CHUNK_SIZE) CHUNK_SIZE
        let ny := Int.emod y (c.height : Int)
        let nz := Int.tmod (z + CHUNK_SIZE) CHUNK_SIZE
        nb.voxels.getD
          (nx + ny * CHUNK_SIZE + nz * CHUNK_SIZE * (nb.height : Int)).toNat false

/-- Out-of-bounds on the x axis of a chunk. -/
def OutX (c : Chunk) (x : Int) : Prop := x < 0 ∨ (c.width : Int) ≤ x

/-- Out-of-bounds on the y axis of a chunk. -/
def OutY (c : Chunk) (y : Int) : Prop := y < 0 ∨ (c.height : Int) ≤ y

/-- Out-of-bounds on the z axis of a chunk. -/
def OutZ (c : Chunk) (z : Int) : Prop := z < 0 ∨ (c.depth : Int) ≤ z

theorem is_voxel_solid_raycast_eq (c : Chunk) (x y z : Int)
    (neighbors : Fin 6 → Option Chunk) :
    is_voxel_solid_raycast c x y z neighbors = is_voxel_solid c x y z neighbors := rfl

theorem neighborIndex_eq_none {cx cy cz : Int}
    (h : (cx ≠ 0 ∧ cy ≠ 0) ∨ (cx ≠ 0 ∧ cz ≠ 0) ∨ (cy ≠ 0 ∧ cz ≠ 0)) :
    neighborIndex cx cy cz = none := by
  unfold neighborIndex
  split_ifs with h1 h2 h3 h4 h5 h6
  all_goals first | rfl | (exfalso; omega)

theorem is_voxel_solid_diagonal_false (c : Chunk) (x y z : Int)
    (neighbors : Fin 6 → Option Chunk) (hw : c.width = 16) (hd : c.depth = 16)
    (h2 : (OutX c x ∧ OutY c y) ∨ (OutX c x ∧ OutZ c z) ∨ (OutY c y ∧ OutZ c z)) :
    is_voxel_solid c x y z neighbors = false := by
  have hw16 : (c.width : Int) = 16 := by rw [hw]; norm_num
  have hd16 : (c.depth : Int) = 16 := by rw [hd]; norm_num
  unfold OutX OutY OutZ at h2
  have hnb : ¬(0 ≤ x ∧ x < (c.width : Int) ∧ 0 ≤ y ∧ y < (c.height : Int) ∧
      0 ≤ z ∧ z < (c.depth : Int)) := by omega
  have hcx : (x < 0 ∨ (c.width : Int) ≤ x) →
      (if x < 0 then (-1 : Int) else if x ≥ CHUNK_SIZE then 1 else 0) ≠ 0 := by
    intro h
    unfold CHUNK_SIZE
    split_ifs <;> omega
  have hcy : (y < 0 ∨ (c.height : Int) ≤ y) →
      (if y < 0 then (-1 : Int) else if y ≥ (c.height : Int) then 1 else 0) ≠ 0 := by
    intro h
    split_ifs <;> omega
  have hcz : (z < 0 ∨ (c.depth : Int) ≤ z) →
      (if z < 0 then (-1 : Int) else if z ≥ CHUNK_SIZE then 1 else 0) ≠ 0 := by
    intro h
    unfold CHUNK_SIZE
    split_ifs <;> omega
  have hnone : neighborIndex
      (if x < 0 then (-1 : Int) else if x ≥ CHUNK_SIZE then 1 else 0)
      (if y < 0 then (-1 : Int) else if y ≥ (c.height : Int) then 1 else 0)
      (if z < 0 then (-1 : Int) else if z ≥ CHUNK_SIZE then 1 else 0) = none := by
    apply neighborIndex_eq_none
    rcases h2 with ⟨ha, hb⟩ | ⟨ha, hb⟩ | ⟨ha, hb⟩
    · exact Or.inl ⟨hcx ha, hcy hb⟩
    · exact Or.inr (Or.inl ⟨hcx ha, hcz hb⟩)
    · exact Or.inr (Or.inr ⟨hcy ha, hcz hb⟩)
  unfold is_voxel_solid
  rw [if_neg hnb]
  simp only [hnone]

theorem is_voxel_solid_no_neighbors_false (c : Chunk) (x y z : Int)
    (neighbors : Fin 6 → Option Chunk) (hnbs : ∀ i, neighbors i = none)
    (hout : OutX c x ∨ OutY c y ∨ OutZ c z) :
    is_voxel_solid c x y z neighbors = false := by
  have hnb : ¬(0 ≤ x ∧ x < (c.width : Int) ∧ 0 ≤ y ∧ y < (c.height : Int) ∧
      0 ≤ z ∧ z < (c.depth : Int)) := by
    unfold OutX OutY OutZ at hout
    omega
  unfold is_voxel_solid
  rw [if_neg hnb]
  rcases hni : neighborIndex
      (if x < 0 then (-1 : Int) else if x ≥ CHUNK_SIZE then 1 else 0)
      (if y < 0 then (-1 : Int) else if y ≥ (c.height : Int) then 1 else 0)
      (if z < 0 then (-1 : Int) else if z ≥ CHUNK_SIZE then 1 else 0) with _ | i
  · simp only [hni]
  · simp only [hni, hnbs i]

/-- C10: a solidity query at a coordinate out of bounds on two or more axes
(a diagonal edge or corner) answers "not solid" for both is_voxel_solid and
is_voxel_solid_raycast, whatever the neighbor array holds; and with every
neighbor absent, any out-of-bounds query answers "not solid" (an absent
neighbor reads as air). -/
theorem solid_query_diagonal_air (c : Chunk) (x y z : Int)
    (neighbors : Fin 6 → Option Chunk) (hw : c.width = 16) (hd : c.depth = 16) :
    (((OutX c x ∧ OutY c y) ∨ (OutX c x ∧ OutZ c z) ∨ (OutY c y ∧ OutZ c z)) →
       is_voxel_solid c x y z neighbors = false ∧
       is_voxel_solid_raycast c x y z neighbors = false) ∧
    ((∀ i, neighbors i = none) → (OutX c x ∨ OutY c y ∨ OutZ c z) →
       is_voxel_solid c x y z neighbors = false ∧
       is_voxel_solid_raycast c x y z neighbors = false) := by
  constructor
  · intro h2
    have h := is_voxel_solid_diagonal_false c x y z neighbors hw hd h2
    exact ⟨h, (is_voxel_solid_raycast_eq c x y z neighbors).trans h⟩
  · intro hnbs hout
    have h := is_voxel_solid_no_neighbors_false c x y z neighbors hnbs hout
    exact ⟨h, (is_voxel_solid_raycast_eq c x y z neighbors).trans h⟩

/-- Concrete instance of the C10 theorem: a corner query on an all-solid
1-voxel-high chunk with an all-solid neighbor everywhere still reads air. -/
theorem solid_query_diagonal_air_spot :
    is_voxel_solid
      ⟨(0, 0, 0), 16, 64, 16, List.replicate (16 * 64 * 16) true, false⟩
      (-1) (-1) 0
      (fun _ => some ⟨(0, 0, 0), 16, 64, 16, List.replicate (16 * 64 * 16) true, false⟩)
      = false :=
  ((solid_query_diagonal_air
      ⟨(0, 0, 0), 16, 64, 16, List.replicate (16 * 64 * 16) true, false⟩
      (-1) (-1) 0
      (fun _ => some ⟨(0, 0, 0), 16, 64, 16, List.replicate (16 * 64 * 16) true, false⟩)
      rfl rfl).1
    (Or.inl ⟨Or.inl (by norm_num), Or.inl (by norm_num)⟩)).1

theorem int_index_toNat {c : Chunk} {x y z : Int}
    (hx : 0 ≤ x) (hxw : x < (c.width : Int)) (hy : 0 ≤ y) (hyh : y < (c.height : Int))
    (hz : 0 ≤ z) (hzd : z < (c.depth : Int)) :
    (x + y * (c.width : Int) + z * (c.width : Int) * (c.height : Int)).toNat =
      x.toNat + y.toNat * c.width + z.toNat * c.width * c.height ∧
    x.toNat + y.toNat * c.width + z.toNat * c.width * c.height <
      c.width * c.height * c.depth := by
  obtain ⟨a, rfl⟩ := Int.eq_ofNat_of_zero_le hx
  obtain ⟨b, rfl⟩ := Int.eq_ofNat_of_zero_le hy
  obtain ⟨e, rfl⟩ := Int.eq_ofNat_of_zero_le hz
  constructor
  · have hcast : ((a : Int) + (b : Int) * (c.width : Int) +
        (e : Int) * (c.width : Int) * (c.height : Int)) =
        ((a + b * c.width + e * c.width * c.height : Nat) : Int) := by push_cast; ring
    simp only [hcast, Int.toNat_natCast]
  · simp only [Int.toNat_natCast]
    exact Terrain.index_lt_volume (by exact_mod_cast hxw) (by exact_mod_cast hyh)
      (by exact_mod_cast hzd)

/-- C8 amended: chunk.rs set_voxel returns no change indicator; instead an
in-bounds write stores the value and sets the chunk dirty flag exactly when
the stored value changes, so a no-op write leaves the chunk (including its
dirty flag) unchanged, and out-of-bounds writes are no-ops. -/
theorem set_voxel_dirty_gating (c : Chunk) (x y z : Int) (v : Bool)
    (hlen : c.voxels.length = c.width * c.height * c.depth) :
    ((0 ≤ x ∧ x < (c.width : Int) ∧ 0 ≤ y ∧ y < (c.height : Int) ∧
        0 ≤ z ∧ z < (c.depth : Int)) →
       voxelAt (set_voxel c x y z v) x y z = v ∧
       (set_voxel c x y z v).dirty = (c.dirty || (voxelAt c x y z != v)) ∧
       (voxelAt c x y z = v → set_voxel c x y z v = c)) ∧
    (¬(0 ≤ x ∧ x < (c.width : Int) ∧ 0 ≤ y ∧ y < (c.height : Int) ∧
        0 ≤ z ∧ z < (c.depth : Int)) →
       set_voxel c x y z v = c) := by
  constructor
  · intro hin
    obtain ⟨hx, hxw, hy, hyh, hz, hzd⟩ := hin
    obtain ⟨hidxeq, hidxlt⟩ := int_index_toNat hx hxw hy hyh hz hzd
    by_cases hch : voxelAt c x y z = v
    · have hnoop : set_voxel c x y z v = c := by
        unfold set_voxel
        rw [if_pos ⟨hx, hxw, hy, hyh, hz, hzd⟩, if_neg (by simp [hch])]
      refine ⟨by rw [hnoop]; exact hch, ?_, fun _ => hnoop⟩
      rw [hnoop, hch]
      simp
    · have hwrite : set_voxel c x y z v =
          { c with
            voxels := c.voxels.set
              (x + y * (c.width : Int) + z * (c.width : Int) *
                (c.height : Int)).toNat v,
            dirty := true } := by
        unfold set_voxel
        rw [if_pos ⟨hx, hxw, hy, hyh, hz, hzd⟩, if_pos hch]
      refine ⟨?_, ?_, fun hc => absurd hc hch⟩
      · rw [hwrite]
        unfold voxelAt
        simp only
        rw [List.getD_eq_getElem?_getD, List.getElem?_set_self
          (by rw [hlen, hidxeq]; exact hidxlt)]
        rfl
      · rw [hwrite]
        have : (voxelAt c x y z != v) = true := bne_iff_ne.mpr hch
        rw [this]
        simp
  · intro hout
    unfold set_voxel
    rw [if_neg hout]

/-- Concrete instance of the C8 amended theorem: a no-op write leaves the
dirty flag clear, a changing write stores the value and sets dirty. -/
theorem set_voxel_dirty_gating_spot :
    (set_voxel ⟨(0, 0, 0), 1, 1, 1, [false], false⟩ 0 0 0 false).dirty = false ∧
    (set_voxel ⟨(0, 0, 0), 1, 1, 1, [false], false⟩ 0 0 0 true).dirty = true := by
  constructor
  · have h := ((set_voxel_dirty_gating ⟨(0, 0, 0), 1, 1, 1, [false], false⟩
      0 0 0 false (by decide)).1 (by norm_num)).2.1
    rw [h]; decide
  · have h := ((set_voxel_dirty_gating ⟨(0, 0, 0), 1, 1, 1, [false], false⟩
      0 0 0 true (by decide)).1 (by norm_num)).2.1
    rw [h]; decide

/-- C8 counterexample: the unit return value of chunk.rs set_voxel cannot
report to the caller whether the stored value changed: two in-bounds writes
with different change status produce the same return value. -/
theorem set_voxel_reports_no_change_info :
    ¬ ∃ report : Unit → Bool,
        ∀ (c : Chunk) (x y z : Int) (v : Bool),
          (0 ≤ x ∧ x < (c.width : Int) ∧ 0 ≤ y ∧ y < (c.height : Int) ∧
            0 ≤ z ∧ z < (c.depth : Int)) →
          report (set_voxel_ret c x y z v).2 = (voxelAt c x y z != v) := by
  rintro ⟨report, hrep⟩
  have h1 := hrep ⟨(0, 0, 0), 1, 1, 1, [false], false⟩ 0 0 0 true (by norm_num)
  have h2 := hrep ⟨(0, 0, 0), 1, 1, 1, [false], false⟩ 0 0 0 false (by norm_num)
  have e1 : (voxelAt ⟨(0, 0, 0), 1, 1, 1, [false], false⟩ 0 0 0 != true) = true := by decide
  have e2 : (voxelAt ⟨(0, 0, 0), 1, 1, 1, [false], false⟩ 0 0 0 != false) = false := by decide
  rw [e1] at h1
  rw [e2] at h2
  have : (set_voxel_ret (⟨(0, 0, 0), 1, 1, 1, [false], false⟩ : Chunk) 0 0 0 true).2 =
      (set_voxel_ret (⟨(0, 0, 0), 1, 1, 1, [false], false⟩ : Chunk) 0 0 0 false).2 := rfl
  rw [this, h2] at h1
  exact Bool.false_ne_true h1

end ChunkMod

namespace WorldNS

/-- main.rs UNLOAD_GRACE_PERIOD (seconds, f32 5.0 as an exact rational). -/
def UNLOAD_GRACE_PERIOD : Rat := 5

/-- The inclusive integer range list lo..=hi. -/
def zrange (lo hi : Int) : List Int :=
  (List.range (hi + 1 - lo).toNat).map fun (i : Nat) => lo + (i : Int)

theorem mem_zrange {lo hi a : Int} : a ∈ zrange lo hi ↔ lo ≤ a ∧ a ≤ hi := by
  simp only [zrange, List.mem_map, List.mem_range]
  constructor
  · rintro ⟨i, hi2, rfl⟩
    omega
  · intro h
    exact ⟨(a - lo).toNat, by omega, by omega⟩

/-- Chebyshev distance between chunk coordinates. -/
def chebDist (a b : Coord) : Int :=
  max ((a.1 - b.1).natAbs : Int)
    (max ((a.2.1 - b.2.1).natAbs : Int) ((a.2.2 - b.2.2).natAbs : Int))

/-- The triple loop of World::update_chunks over the want cube
(player-R ..= player+R on each axis). -/
def wantCube (p : Coord) (r : Int) : List Coord :=
  (zrange (p.1 - r) (p.1 + r)).flatMap fun x =>
    (zrange (p.2.1 - r) (p.2.1 + r)).flatMap fun y =>
      (zrange (p.2.2 - r) (p.2.2 + r)).map fun z => (x, y, z)

theorem mem_wantCube {p : Coord} {r : Int} {c : Coord} :
    c ∈ wantCube p r ↔ chebDist c p ≤ r := by
  obtain ⟨a, b2, c2⟩ := c
  simp only [wantCube, List.mem_flatMap, List.mem_map, mem_zrange]
  constructor
  · rintro ⟨x, hx, y, hy, z, hz, heq⟩
    obtain ⟨e1, e2, e3⟩ : x = a ∧ y = b2 ∧ z = c2 := by simpa [Prod.ext_iff] using heq
    subst e1; subst e2; subst e3
    simp only [chebDist]
    omega
  · intro h
    simp only [chebDist] at h
    exact ⟨a, by omega, b2, by omega, c2, by omega, rfl⟩

/-- HashMap read, modelled on an association list. -/
def alGet (m : List (Coord × Rat)) (k : Coord) : Option Rat :=
  (m.find? fun kv => decide (kv.1 = k)).map Prod.snd

/-- HashMap insert (overwrite), modelled on an association list. -/
def alInsert (m : List (Coord × Rat)) (k : Coord) (v : Rat) : List (Coord × Rat) :=
  (k, v) :: m.filter fun kv => decide (kv.1 ≠ k)

/-- HashMap remove, modelled on an association list. -/
def alRemove (m : List (Coord × Rat)) (k : Coord) : List (Coord × Rat) :=
  m.filter fun kv => decide (kv.1 ≠ k)

theorem alGet_filter_ne {m : List (Coord × Rat)} {k k2 : Coord} (h : k2 ≠ k) :
    alGet (m.filter fun kv => decide (kv.1 ≠ k)) k2 = alGet m k2 := by
  induction m with
  | nil => rfl
  | cons kv m ih =>
    by_cases hkv : kv.1 = k
    · rw [List.filter_cons_of_neg (by simp [hkv])]
      unfold alGet
      rw [List.find?_cons_of_neg _ (by simp [hkv]; exact fun he => h he.symm)]
      exact ih
    · rw [List.filter_cons_of_pos (by simp [hkv])]
      by_cases hk2 : kv.1 = k2
      · unfold alGet
        rw [List.find?_cons_of_pos _ (by simp [hk2]),
          List.find?_cons_of_pos _ (by simp [hk2])]
      · unfold alGet
        rw [List.find?_cons_of_neg _ (by simp [hk2]),
          List.find?_cons_of_neg _ (by simp [hk2])]
        exact ih

theorem alGet_insert_self {m : List (Coord × Rat)} {k : Coord} {v : Rat} :
    alGet (alInsert m k v) k = some v := by
  unfold alGet alInsert
  rw [List.find?_cons_of_pos _ (by simp)]
  rfl

theorem alGet_insert_ne {m : List (Coord × Rat)} {k k2 : Coord} {v : Rat} (h : k2 ≠ k) :
    alGet (alInsert m k v) k2 = alGet m k2 := by
  have step : alGet ((k, v) :: m.filter fun kv => decide (kv.1 ≠ k)) k2 =
      alGet (m.filter fun kv => decide (kv.1 ≠ k)) k2 := by
    unfold alGet
    rw [List.find?_cons_of_neg _ (by simp; exact fun he => h he.symm)]
  exact step.trans (alGet_filter_ne h)

theorem alGet_remove_self {m : List (Coord × Rat)} {k : Coord} :
    alGet (alRemove m k) k = none := by
  induction m with
  | nil => rfl
  | cons kv m ih =>
    by_cases hkv : kv.1 = k
    · unfold alRemove at ih ⊢
      rw [List.filter_cons_of_neg (by simp [hkv])]
      exact ih
    · unfold alRemove at ih ⊢
      rw [List.filter_cons_of_pos (by simp [hkv])]
      unfold alGet at ih ⊢
      rw [List.find?_cons_of_neg _ (by simp [hkv])]
      exact ih

theorem alGet_remove_ne {m : List (Coord × Rat)} {k k2 : Coord} (h : k2 ≠ k) :
    alGet (alRemove m k) k2 = alGet m k2 :=
  alGet_filter_ne h

/-- world.rs World: the streaming state.  Chunk payloads (voxel data) and
entity ids are irrelevant to the streaming claims, so the chunks and
chunk_entities maps are modelled by their key sets; instants are exact
rationals; a spawned ChunkMeshingTask is recorded by its chunk key.  The
chunk_loading_queue priority list is unused by any claim and omitted. -/
structure World where
  chunks : List Coord
  chunk_entities : List Coord
  chunk_size : Nat
  render_distance : Int
  last_player_chunk : Coord
  chunk_load_queue : List Coord
  chunk_unload_queue : List Coord
  chunk_last_accessed : List (Coord × Rat)
  unload_grace_period : Rat
  meshing_tasks : List Coord

/-- world.rs World::new. -/
def World.new (chunk_size : Nat) (render_distance : Int) : World where
  chunks := []
  chunk_entities := []
  chunk_size := chunk_size
  render_distance := render_distance
  last_player_chunk := (0, 0, 0)
  chunk_load_queue := []
  chunk_unload_queue := []
  chunk_last_accessed := []
  unload_grace_period := UNLOAD_GRACE_PERIOD
  meshing_tasks := []

/-- The body of the want-cube loop of World::update_chunks: enqueue absent
chunks for loading and refresh last-accessed stamps. -/
def wantStep (now : Rat) (acc : World) (key : Coord) : World :=
  { acc with
    chunk_load_queue :=
      if acc.chunks.contains key then acc.chunk_load_queue
      else acc.chunk_load_queue ++ [key],
    chunk_last_accessed := alInsert acc.chunk_last_accessed key now }

/-- The body of the unload-candidate loop of World::update_chunks: stale
chunks (grace period exceeded) are queued for unloading. -/
def unloadStep (now : Rat) (acc : World) (key : Coord) : World :=
  match alGet acc.chunk_last_accessed key with
  | some t =>
    if now - t > acc.unload_grace_period then
      { acc with chunk_unload_queue := acc.chunk_unload_queue ++ [key] }
    else acc
  | none => acc

/-- The unload-candidate test of World::update_chunks: squared Euclidean
distance from the player chunk strictly greater than the squared render
distance (the i32 squares and the f32 comparison of the source are exact
here). -/
def euclidFar (px py pz r : Int) (k : Coord) : Bool :=
  decide ((k.1 - px) ^ 2 + (k.2.1 - py) ^ 2 + (k.2.2 - pz) ^ 2 > r ^ 2)

/-- world.rs World::update_chunks: record the player chunk, clear both
queues, walk the want cube (enqueue loads, refresh stamps), then queue
unloads for resident chunks that are outside the Euclidean render sphere
and past the grace period. -/
def update_chunks (w : World) (px py pz : Int) (now : Rat) : World :=
  let w1 := { w with last_player_chunk := (px, py, pz),
                     chunk_load_queue := [], chunk_unload_queue := [] }
  let w2 := (wantCube (px, py, pz) w.render_distance).foldl (wantStep now) w1
  let toRemove := w2.chunks.filter (euclidFar px py pz w2.render_distance)
  toRemove.foldl (unloadStep now) w2

/-- The body of the load-queue drain of World::process_queue: generate and
insert an absent chunk and spawn its meshing task. -/
def loadStep (acc : World) (key : Coord) : World :=
  if acc.chunks.contains key then acc
  else { acc with chunks := key :: acc.chunks,
                  meshing_tasks := acc.meshing_tasks ++ [key] }

/-- The body of the unload-queue drain of World::process_queue: despawn the
entity and drop the chunk and its stamp. -/
def evictStep (acc : World) (key : Coord) : World :=
  { acc with
    chunk_entities := acc.chunk_entities.filter fun e => decide (e ≠ key),
    chunks := acc.chunks.filter fun e => decide (e ≠ key),
    chunk_last_accessed := alRemove acc.chunk_last_accessed key }

/-- world.rs World::process_queue: drain the load queue, then the unload
queue. -/
def process_queue (w : World) : World :=
  let w1 := w.chunk_load_queue.foldl loadStep { w with chunk_load_queue := [] }
  w1.chunk_unload_queue.foldl evictStep { w1 with chunk_unload_queue := [] }

/-- One settle tick: want-set recomputation (update_chunks) followed by
queue processing (process_queue), as driven each frame by main.rs. -/
def settleTick (w : World) (p : Coord) (now : Rat) : World :=
  process_queue (update_chunks w p.1 p.2.1 p.2.2 now)

/-- main.rs handle_meshing_tasks, for one completed task with the given
chunk key: update the existing entity when present, otherwise spawn a new
entity for the key (without consulting the chunks map). -/
def handle_task_complete (w : World) (key : Coord) : World :=
  let w1 := { w with meshing_tasks := w.meshing_tasks.erase key }
  if w1.chunk_entities.contains key then w1
  else { w1 with chunk_entities := key :: w1.chunk_entities }

theorem contains_iff {l : List Coord} {k : Coord} : l.contains k = true ↔ k ∈ l := by
  simp [List.contains]

theorem wantFold_spec (now : Rat) (l : List Coord) (a : World) :
    (l.foldl (wantStep now) a).chunks = a.chunks ∧
    (l.foldl (wantStep now) a).chunk_entities = a.chunk_entities ∧
    (l.foldl (wantStep now) a).render_distance = a.render_distance ∧
    (l.foldl (wantStep now) a).unload_grace_period = a.unload_grace_period ∧
    (l.foldl (wantStep now) a).chunk_unload_queue = a.chunk_unload_queue ∧
    (l.foldl (wantStep now) a).meshing_tasks = a.meshing_tasks ∧
    (l.foldl (wantStep now) a).chunk_load_queue =
      a.chunk_load_queue ++ l.filter (fun k => !a.chunks.contains k) ∧
    (∀ k, alGet (l.foldl (wantStep now) a).chunk_last_accessed k =
      if k ∈ l then some now else alGet a.chunk_last_accessed k) := by
  induction l generalizing a with
  | nil => simp
  | cons key l ih =>
    obtain ⟨ih1, ih2, ih3, ih4, ih5, ih6, ih7, ih8⟩ := ih (wantStep now a key)
    rw [List.foldl_cons]
    refine ⟨ih1, ih2, ih3, ih4, ih5, ih6, ?_, ?_⟩
    · rw [ih7]
      by_cases hc : a.chunks.contains key = true
      · rw [List.filter_cons_of_neg (by simp only [hc]; decide)]
        simp only [wantStep, hc, if_pos]
      · have hcf : a.chunks.contains key = false := by
          rw [Bool.not_eq_true] at hc; exact hc
        rw [List.filter_cons_of_pos (by simp only [hcf]; decide)]
        simp only [wantStep, hcf]
        simp
    · intro k
      rw [ih8 k]
      by_cases hkl : k ∈ l
      · rw [if_pos hkl, if_pos (List.mem_cons_of_mem key hkl)]
      · rw [if_neg hkl]
        by_cases hkey : k = key
        · subst hkey
          simp only [wantStep]
          rw [alGet_insert_self, if_pos (List.mem_cons_self k l)]
        · simp only [wantStep]
          rw [alGet_insert_ne hkey, if_neg (by simp [List.mem_cons, hkey, hkl])]

/-- The unload-staleness test of World::update_chunks, as a predicate of
the last-accessed map, the grace period and the current instant. -/
def staleAt (now : Rat) (la : List (Coord × Rat)) (grace : Rat) (k : Coord) : Bool :=
  match alGet la k with
  | some t => decide (now - t > grace)
  | none => false

theorem unloadStep_eq (now : Rat) (a : World) (key : Coord) :
    unloadStep now a key =
      if staleAt now a.chunk_last_accessed a.unload_grace_period key then
        { a with chunk_unload_queue := a.chunk_unload_queue ++ [key] }
      else a := by
  unfold unloadStep staleAt
  cases hga : alGet a.chunk_last_accessed key with
  | none => simp
  | some t =>
    by_cases hgt : now - t > a.unload_grace_period
    · simp [hgt]
    · simp [hgt]

theorem unloadFold_spec (now : Rat) (l : List Coord) (a : World) :
    (l.foldl (unloadStep now) a).chunks = a.chunks ∧
    (l.foldl (unloadStep now) a).chunk_entities = a.chunk_entities ∧
    (l.foldl (unloadStep now) a).render_distance = a.render_distance ∧
    (l.foldl (unloadStep now) a).unload_grace_period = a.unload_grace_period ∧
    (l.foldl (unloadStep now) a).chunk_last_accessed = a.chunk_last_accessed ∧
    (l.foldl (unloadStep now) a).chunk_load_queue = a.chunk_load_queue ∧
    (l.foldl (unloadStep now) a).meshing_tasks = a.meshing_tasks ∧
    (l.foldl (unloadStep now) a).chunk_unload_queue =
      a.chunk_unload_queue ++
        l.filter (staleAt now a.chunk_last_accessed a.unload_grace_period) := by
  induction l generalizing a with
  | nil => simp
  | cons key l ih =>
    obtain ⟨ih1, ih2, ih3, ih4, ih5, ih6, ih7, ih8⟩ := ih (unloadStep now a key)
    rw [List.foldl_cons]
    rw [unloadStep_eq] at ih1 ih2 ih3 ih4 ih5 ih6 ih7 ih8 ⊢
    by_cases hp : staleAt now a.chunk_last_accessed a.unload_grace_period key = true
    · rw [if_pos hp] at ih1 ih2 ih3 ih4 ih5 ih6 ih7 ih8 ⊢
      refine ⟨ih1, ih2, ih3, ih4, ih5, ih6, ih7, ?_⟩
      rw [ih8, List.filter_cons_of_pos hp]
      simp
    · rw [if_neg hp] at ih1 ih2 ih3 ih4 ih5 ih6 ih7 ih8 ⊢
      refine ⟨ih1, ih2, ih3, ih4, ih5, ih6, ih7, ?_⟩
      rw [ih8, List.filter_cons_of_neg hp]

theorem loadFold_spec (l : List Coord) (a : World) :
    (l.foldl loadStep a).chunk_entities = a.chunk_entities ∧
    (l.foldl loadStep a).chunk_unload_queue = a.chunk_unload_queue ∧
    (l.foldl loadStep a).chunk_last_accessed = a.chunk_last_accessed ∧
    (l.foldl loadStep a).render_distance = a.render_distance ∧
    (l.foldl loadStep a).unload_grace_period = a.unload_grace_period ∧
    (∀ k, k ∈ (l.foldl loadStep a).chunks ↔ k ∈ a.chunks ∨ k ∈ l) := by
  induction l generalizing a with
  | nil => simp
  | cons key l ih =>
    obtain ⟨ih1, ih2, ih3, ih4, ih5, ih6⟩ := ih (loadStep a key)
    rw [List.foldl_cons]
    have hstep : (loadStep a key).chunk_entities = a.chunk_entities ∧
        (loadStep a key).chunk_unload_queue = a.chunk_unload_queue ∧
        (loadStep a key).chunk_last_accessed = a.chunk_last_accessed ∧
        (loadStep a key).render_distance = a.render_distance ∧
        (loadStep a key).unload_grace_period = a.unload_grace_period ∧
        (∀ k, k ∈ (loadStep a key).chunks ↔ k ∈ a.chunks ∨ k = key) := by
      unfold loadStep
      by_cases hc : a.chunks.contains key = true
      · rw [if_pos hc]
        refine ⟨rfl, rfl, rfl, rfl, rfl, ?_⟩
        intro k
        constructor
        · exact fun h => Or.inl h
        · rintro (h | rfl)
          · exact h
          · exact contains_iff.mp hc
      · rw [if_neg hc]
        refine ⟨rfl, rfl, rfl, rfl, rfl, ?_⟩
        intro k
        simp [List.mem_cons, or_comm]
    refine ⟨ih1.trans hstep.1, ih2.trans hstep.2.1, ih3.trans hstep.2.2.1,
      ih4.trans hstep.2.2.2.1, ih5.trans hstep.2.2.2.2.1, ?_⟩
    intro k
    rw [ih6 k, hstep.2.2.2.2.2 k]
    simp [List.mem_cons]
    tauto

theorem evictFold_spec (l : List Coord) (a : World) :
    (l.foldl evictStep a).chunk_load_queue = a.chunk_load_queue ∧
    (l.foldl evictStep a).render_distance = a.render_distance ∧
    (l.foldl evictStep a).unload_grace_period = a.unload_grace_period ∧
    (l.foldl evictStep a).meshing_tasks = a.meshing_tasks ∧
    (∀ k, k ∈ (l.foldl evictStep a).chunks ↔ k ∈ a.chunks ∧ k ∉ l) ∧
    (∀ k, k ∈ (l.foldl evictStep a).chunk_entities ↔ k ∈ a.chunk_entities ∧ k ∉ l) ∧
    (∀ k, alGet (l.foldl evictStep a).chunk_last_accessed k =
      if k ∈ l then none else alGet a.chunk_last_accessed k) := by
  induction l generalizing a with
  | nil => simp
  | cons key l ih =>
    obtain ⟨ih1, ih2, ih3, ih4, ih5, ih6, ih7⟩ := ih (evictStep a key)
    rw [List.foldl_cons]
    refine ⟨ih1, ih2, ih3, ih4, ?_, ?_, ?_⟩
    · intro k
      rw [ih5 k]
      simp only [evictStep, List.mem_filter, decide_eq_true_eq, List.mem_cons]
      tauto
    · intro k
      rw [ih6 k]
      simp only [evictStep, List.mem_filter, decide_eq_true_eq, List.mem_cons]
      tauto
    · intro k
      rw [ih7 k]
      by_cases hkl : k ∈ l
      · rw [if_pos hkl, if_pos (List.mem_cons_of_mem key hkl)]
      · rw [if_neg hkl]
        by_cases hkey : k = key
        · subst hkey
          simp only [evictStep]
          rw [alGet_remove_self, if_pos (List.mem_cons_self k l)]
        · simp only [evictStep]
          rw [alGet_remove_ne hkey, if_neg (by simp [List.mem_cons, hkey, hkl])]

theorem update_chunks_spec (w : World) (px py pz : Int) (now : Rat) :
    (update_chunks w px py pz now).chunks = w.chunks ∧
    (update_chunks w px py pz now).chunk_entities = w.chunk_entities ∧
    (update_chunks w px py pz now).render_distance = w.render_distance ∧
    (update_chunks w px py pz now).unload_grace_period = w.unload_grace_period ∧
    (update_chunks w px py pz now).meshing_tasks = w.meshing_tasks ∧
    (update_chunks w px py pz now).chunk_load_queue =
      (wantCube (px, py, pz) w.render_distance).filter
        (fun k => !w.chunks.contains k) ∧
    (∀ k, alGet (update_chunks w px py pz now).chunk_last_accessed k =
      if k ∈ wantCube (px, py, pz) w.render_distance then some now
      else alGet w.chunk_last_accessed k) ∧
    (∀ k, k ∈ (update_chunks w px py pz now).chunk_unload_queue ↔
      (k ∈ w.chunks ∧ euclidFar px py pz w.render_distance k = true ∧
       staleAt now (update_chunks w px py pz now).chunk_last_accessed
         w.unload_grace_period k = true)) := by
  simp only [update_chunks]
  set base : World := ({ w with last_player_chunk := (px, py, pz), chunk_load_queue := [], chunk_unload_queue := [] } : World) with hbase
  set w2 : World :=
    (wantCube (px, py, pz) w.render_distance).foldl (wantStep now) base with hw2
  have b1 : base.chunks = w.chunks := rfl
  have b2 : base.chunk_entities = w.chunk_entities := rfl
  have b3 : base.render_distance = w.render_distance := rfl
  have b4 : base.unload_grace_period = w.unload_grace_period := rfl
  have b5 : base.chunk_unload_queue = [] := rfl
  have b6 : base.meshing_tasks = w.meshing_tasks := rfl
  have b7 : base.chunk_load_queue = [] := rfl
  have b8 : base.chunk_last_accessed = w.chunk_last_accessed := rfl
  obtain ⟨h1, h2, h3, h4, h5, h6, h7, h8⟩ :=
    wantFold_spec now (wantCube (px, py, pz) w.render_distance) base
  rw [← hw2] at h1 h2 h3 h4 h5 h6 h7 h8
  rw [b1] at h1
  rw [b2] at h2
  rw [b3] at h3
  rw [b4] at h4
  rw [b5] at h5
  rw [b6] at h6
  rw [b7, b1] at h7
  simp only [b8] at h8
  obtain ⟨g1, g2, g3, g4, g5, g6, g7, g8⟩ := unloadFold_spec now
    (w2.chunks.filter (euclidFar px py pz w2.render_distance)) w2
  refine ⟨g1.trans h1, g2.trans h2, g3.trans h3, g4.trans h4, g7.trans h6, ?_, ?_, ?_⟩
  · rw [g6, h7]
    simp
  · intro k
    rw [g5, h8 k]
  · intro k
    rw [g8, g5, h5]
    simp only [List.nil_append, List.mem_filter, h1, h3, h4]
    constructor
    · rintro ⟨⟨hmem, hfar⟩, hstale⟩
      exact ⟨hmem, hfar, hstale⟩
    · rintro ⟨hmem, hfar, hstale⟩
      exact ⟨⟨hmem, hfar⟩, hstale⟩

theorem process_queue_mem (w : World) (k : Coord) :
    (k ∈ (process_queue w).chunks ↔
      ((k ∈ w.chunks ∨ k ∈ w.chunk_load_queue) ∧ k ∉ w.chunk_unload_queue)) ∧
    (k ∈ (process_queue w).chunk_entities ↔
      (k ∈ w.chunk_entities ∧ k ∉ w.chunk_unload_queue)) ∧
    (alGet (process_queue w).chunk_last_accessed k =
      if k ∈ w.chunk_unload_queue then none
      else alGet w.chunk_last_accessed k) ∧
    (process_queue w).render_distance = w.render_distance ∧
    (process_queue w).unload_grace_period = w.unload_grace_period := by
  simp only [process_queue]
  set base : World := ({ w with chunk_load_queue := [] } : World) with hbase
  set w1 : World := w.chunk_load_queue.foldl loadStep base with hw1
  set acc : World := ({ w1 with chunk_unload_queue := [] } : World) with hacc
  have b1 : base.chunks = w.chunks := rfl
  have b2 : base.chunk_entities = w.chunk_entities := rfl
  have b3 : base.chunk_unload_queue = w.chunk_unload_queue := rfl
  have b4 : base.chunk_last_accessed = w.chunk_last_accessed := rfl
  have b5 : base.render_distance = w.render_distance := rfl
  have b6 : base.unload_grace_period = w.unload_grace_period := rfl
  have a1 : acc.chunks = w1.chunks := rfl
  have a2 : acc.chunk_entities = w1.chunk_entities := rfl
  have a3 : acc.chunk_last_accessed = w1.chunk_last_accessed := rfl
  have a4 : acc.render_distance = w1.render_distance := rfl
  have a5 : acc.unload_grace_period = w1.unload_grace_period := rfl
  obtain ⟨l1, l2, l3, l4, l5, l6⟩ := loadFold_spec w.chunk_load_queue base
  rw [← hw1] at l1 l2 l3 l4 l5 l6
  rw [b2] at l1
  rw [b3] at l2
  rw [b4] at l3
  rw [b5] at l4
  rw [b6] at l5
  simp only [b1] at l6
  obtain ⟨e1, e2, e3, e4, e5, e6, e7⟩ := evictFold_spec w1.chunk_unload_queue acc
  refine ⟨?_, ?_, ?_, e2.trans (a4.trans l4), e3.trans (a5.trans l5)⟩
  · rw [e5 k, a1, l6 k, l2]
  · rw [e6 k, a2, l1, l2]
  · rw [e7 k, a3, l3, l2]

theorem euclidFar_of_cheb_gt {px py pz r : Int} {c : Coord} (hr : 0 ≤ r)
    (h : r < chebDist c (px, py, pz)) : euclidFar px py pz r c = true := by
  apply decide_eq_true
  have habs : ∀ d : Int, ((d.natAbs : Int)) * ((d.natAbs : Int)) = d * d := by
    intro d
    calc ((d.natAbs : Int)) * ((d.natAbs : Int))
        = ((d.natAbs * d.natAbs : Nat) : Int) := by push_cast; ring
      _ = d * d := Int.natAbs_mul_self
  have h1 : r < ((c.1 - px).natAbs : Int) ∨ r < ((c.2.1 - py).natAbs : Int) ∨
      r < ((c.2.2 - pz).natAbs : Int) := by
    simp only [chebDist] at h
    omega
  have s1 := sq_nonneg (c.1 - px)
  have s2 := sq_nonneg (c.2.1 - py)
  have s3 := sq_nonneg (c.2.2 - pz)
  rcases h1 with hA | hA | hA
  · have key := mul_self_lt_mul_self hr hA
    rw [habs] at key
    have key2 : r ^ 2 < (c.1 - px) ^ 2 := by rw [pow_two, pow_two]; exact key
    linarith
  · have key := mul_self_lt_mul_self hr hA
    rw [habs] at key
    have key2 : r ^ 2 < (c.2.1 - py) ^ 2 := by rw [pow_two, pow_two]; exact key
    linarith
  · have key := mul_self_lt_mul_self hr hA
    rw [habs] at key
    have key2 : r ^ 2 < (c.2.2 - pz) ^ 2 := by rw [pow_two, pow_two]; exact key
    linarith

/-- C4: after one settle tick (update_chunks then process_queue), a chunk
coordinate is resident exactly when it is within Chebyshev distance
render_distance of the observer chunk, or it was resident before and its
unload grace period has not yet elapsed. -/
theorem settleTick_resident_iff (w : World) (p : Coord) (now : Rat) (c : Coord)
    (hR : 0 ≤ w.render_distance)
    (hgrace : 0 ≤ w.unload_grace_period)
    (hdom : ∀ k ∈ w.chunks, ∃ t, alGet w.chunk_last_accessed k = some t) :
    (c ∈ (settleTick w p now).chunks ↔
      (chebDist c p ≤ w.render_distance ∨
        (c ∈ w.chunks ∧ ∃ t, alGet w.chunk_last_accessed c = some t ∧
          now - t ≤ w.unload_grace_period))) := by
  have hpe : ((p.1, p.2.1, p.2.2) : Coord) = p := rfl
  obtain ⟨u1, u2, u3, u4, u5, u6, u7, u8⟩ := update_chunks_spec w p.1 p.2.1 p.2.2 now
  rw [hpe] at u6 u7
  obtain ⟨p1, p2, p3, p4, p5⟩ :=
    process_queue_mem (update_chunks w p.1 p.2.1 p.2.2 now) c
  unfold settleTick
  rw [p1, u1, u6]
  have hloadmem : c ∈ (wantCube p w.render_distance).filter
      (fun k => !w.chunks.contains k) ↔
      (c ∈ wantCube p w.render_distance ∧ c ∉ w.chunks) := by
    rw [List.mem_filter]
    constructor
    · rintro ⟨hmem, hnc⟩
      refine ⟨hmem, fun hcm => ?_⟩
      rw [contains_iff.mpr hcm] at hnc
      simp at hnc
    · rintro ⟨hmem, hnc⟩
      refine ⟨hmem, ?_⟩
      have : w.chunks.contains c = false := by
        by_contra hb
        rw [Bool.not_eq_false] at hb
        exact hnc (contains_iff.mp hb)
      rw [this]
      rfl
  rw [hloadmem]
  by_cases hcheb : chebDist c p ≤ w.render_distance
  · have hwant : c ∈ wantCube p w.render_distance := mem_wantCube.mpr hcheb
    have hla : alGet (update_chunks w p.1 p.2.1 p.2.2 now).chunk_last_accessed c =
        some now := by rw [u7 c, if_pos hwant]
    have hnstale : staleAt now
        (update_chunks w p.1 p.2.1 p.2.2 now).chunk_last_accessed
        w.unload_grace_period c = false := by
      unfold staleAt
      rw [hla]
      simp only [decide_eq_false_iff_not]
      intro hgt
      have : now - now = 0 := by ring
      rw [this] at hgt
      exact absurd hgt (by exact not_lt.mpr hgrace)
    have hnunload : c ∉ (update_chunks w p.1 p.2.1 p.2.2 now).chunk_unload_queue := by
      intro hmem
      obtain ⟨_, _, hstale⟩ := (u8 c).mp hmem
      rw [hnstale] at hstale
      exact Bool.false_ne_true hstale
    constructor
    · intro _
      exact Or.inl hcheb
    · intro _
      refine ⟨?_, hnunload⟩
      by_cases hcm : c ∈ w.chunks
      · exact Or.inl hcm
      · exact Or.inr ⟨hwant, hcm⟩
  · have hwantn : c ∉ wantCube p w.render_distance := by
      intro hmem
      exact hcheb (mem_wantCube.mp hmem)
    have hla : alGet (update_chunks w p.1 p.2.1 p.2.2 now).chunk_last_accessed c =
        alGet w.chunk_last_accessed c := by rw [u7 c, if_neg hwantn]
    have hfar : euclidFar p.1 p.2.1 p.2.2 w.render_distance c = true := by
      apply euclidFar_of_cheb_gt hR
      rw [hpe]
      exact lt_of_not_ge (fun hge => hcheb hge)
    constructor
    · rintro ⟨hin, hnunload⟩
      rcases hin with hcm | ⟨hwant, _⟩
      · refine Or.inr ⟨hcm, ?_⟩
        obtain ⟨t, ht⟩ := hdom c hcm
        refine ⟨t, ht, ?_⟩
        by_contra hgt
        apply hnunload
        rw [u8 c]
        refine ⟨hcm, hfar, ?_⟩
        unfold staleAt
        rw [hla, ht]
        simp only [decide_eq_true_eq]
        exact lt_of_not_ge hgt
      · exact absurd hwant hwantn
    · rintro (hch | ⟨hcm, t, ht, hle⟩)
      · exact absurd hch hcheb
      · refine ⟨Or.inl hcm, ?_⟩
        intro hmem
        obtain ⟨_, _, hstale⟩ := (u8 c).mp hmem
        unfold staleAt at hstale
        rw [hla, ht] at hstale
        simp only [decide_eq_true_eq] at hstale
        exact absurd hstale (by exact not_lt.mpr hle)

/-- Concrete instance of the C4 theorem: with render distance 1 and grace
period 5, a chunk at the origin is resident after a settle tick around the
origin. -/
theorem settleTick_resident_iff_spot :
    ((0, 0, 0) : Coord) ∈
      (settleTick (World.new 16 1) ((0, 0, 0) : Coord) 0).chunks :=
  (settleTick_resident_iff (World.new 16 1) (0, 0, 0) 0 (0, 0, 0)
    (by decide) (by decide)
    (by intro k hk; exact absurd hk (List.not_mem_nil k))).mpr
    (Or.inl (by decide))

/-- A sequence of settle ticks, each given by an observer chunk coordinate
and the instant at which it runs. -/
def runTicks (w : World) (ticks : List (Coord × Rat)) : World :=
  ticks.foldl (fun acc pt => settleTick acc pt.1 pt.2) w

/-- The last-accessed stamp of coordinate c after a tick sequence, starting
from stamp a0: each tick whose want cube contains c refreshes the stamp to
that tick's instant. -/
def accAfter (c : Coord) (r : Int) (a0 : Rat) (ticks : List (Coord × Rat)) : Rat :=
  ticks.foldl (fun a pt => if chebDist c pt.1 ≤ r then pt.2 else a) a0

theorem settleTick_keep (w : World) (p : Coord) (t : Rat) (c : Coord) (a0 : Rat)
    (hgrace : 0 ≤ w.unload_grace_period)
    (hc : c ∈ w.chunks)
    (ha : alGet w.chunk_last_accessed c = some a0)
    (hcond : w.render_distance < chebDist c p → t - a0 ≤ w.unload_grace_period) :
    c ∈ (settleTick w p t).chunks ∧
    alGet (settleTick w p t).chunk_last_accessed c =
      some (if chebDist c p ≤ w.render_distance then t else a0) ∧
    c ∉ (update_chunks w p.1 p.2.1 p.2.2 t).chunk_unload_queue ∧
    (settleTick w p t).render_distance = w.render_distance ∧
    (settleTick w p t).unload_grace_period = w.unload_grace_period := by
  have hpe : ((p.1, p.2.1, p.2.2) : Coord) = p := rfl
  obtain ⟨u1, u2, u3, u4, u5, u6, u7, u8⟩ := update_chunks_spec w p.1 p.2.1 p.2.2 t
  rw [hpe] at u6 u7
  obtain ⟨p1, p2, p3, p4, p5⟩ :=
    process_queue_mem (update_chunks w p.1 p.2.1 p.2.2 t) c
  have hnunload : c ∉ (update_chunks w p.1 p.2.1 p.2.2 t).chunk_unload_queue := by
    intro hmem
    obtain ⟨_, _, hstale⟩ := (u8 c).mp hmem
    unfold staleAt at hstale
    by_cases hwant : c ∈ wantCube p w.render_distance
    · rw [u7 c, if_pos hwant] at hstale
      simp only [decide_eq_true_eq] at hstale
      have : t - t = 0 := by ring
      rw [this] at hstale
      exact absurd hstale (not_lt.mpr hgrace)
    · rw [u7 c, if_neg hwant, ha] at hstale
      simp only [decide_eq_true_eq] at hstale
      have hcheb : w.render_distance < chebDist c p :=
        lt_of_not_ge fun hge => hwant (mem_wantCube.mpr hge)
      exact absurd hstale (not_lt.mpr (hcond hcheb))
  unfold settleTick
  refine ⟨?_, ?_, hnunload, p4.trans u3, p5.trans u4⟩
  · rw [p1]
    exact ⟨Or.inl (by rw [u1]; exact hc), hnunload⟩
  · rw [p3, if_neg hnunload, u7 c]
    by_cases hwant : c ∈ wantCube p w.render_distance
    · rw [if_pos hwant, if_pos (mem_wantCube.mp hwant)]
    · rw [if_neg hwant, ha,
        if_neg (fun hle => hwant (mem_wantCube.mpr hle))]

/-- C5: a resident chunk whose coordinate, whenever it is outside the want
cube of a tick, has been out of the want cube for at most the grace period
since its last access, is never placed on the unload queue and stays
resident through the whole tick sequence (so a coordinate that re-enters
the want cube before the grace period elapses is never destroyed). -/
theorem grace_reentry_no_unload (w : World) (c : Coord) (a0 : Rat)
    (ticks : List (Coord × Rat))
    (hgrace : 0 ≤ w.unload_grace_period)
    (hc : c ∈ w.chunks)
    (ha : alGet w.chunk_last_accessed c = some a0)
    (hH : ∀ i, i < ticks.length →
      w.render_distance < chebDist c (ticks.getD i ((0, 0, 0), 0)).1 →
      (ticks.getD i ((0, 0, 0), 0)).2 -
        accAfter c w.render_distance a0 (ticks.take i) ≤ w.unload_grace_period) :
    c ∈ (runTicks w ticks).chunks ∧
    alGet (runTicks w ticks).chunk_last_accessed c =
      some (accAfter c w.render_distance a0 ticks) ∧
    (∀ i, i < ticks.length →
      c ∉ (update_chunks (runTicks w (ticks.take i))
        (ticks.getD i ((0, 0, 0), 0)).1.1 (ticks.getD i ((0, 0, 0), 0)).1.2.1
        (ticks.getD i ((0, 0, 0), 0)).1.2.2
        (ticks.getD i ((0, 0, 0), 0)).2).chunk_unload_queue) := by
  induction ticks generalizing w a0 with
  | nil =>
    refine ⟨hc, ?_, ?_⟩
    · simpa [runTicks, accAfter] using ha
    · intro i hi
      simp at hi
  | cons pt rest ih =>
    obtain ⟨p, t⟩ := pt
    have h0 := settleTick_keep w p t c a0 hgrace hc ha (by
      have := hH 0 (by simp)
      simpa [accAfter] using this)
    have hrd : (settleTick w p t).render_distance = w.render_distance := h0.2.2.2.1
    have hgp : (settleTick w p t).unload_grace_period = w.unload_grace_period :=
      h0.2.2.2.2
    have hrun : runTicks w ((p, t) :: rest) = runTicks (settleTick w p t) rest := by
      simp [runTicks]
    have hacc : accAfter c w.render_distance a0 ((p, t) :: rest) =
        accAfter c w.render_distance
          (if chebDist c p ≤ w.render_distance then t else a0) rest := by
      simp [accAfter]
    have ihres := ih (settleTick w p t)
      (if chebDist c p ≤ w.render_distance then t else a0)
      (by rw [hgp]; exact hgrace) h0.1 h0.2.1
      (by
        intro i hi hfar
        rw [hrd] at hfar ⊢
        rw [hgp]
        have := hH (i + 1) (by simpa using Nat.succ_lt_succ hi)
        simp only [List.getD_cons_succ, List.take_succ_cons] at this
        have hstep : accAfter c w.render_distance a0 ((p, t) :: rest.take i) =
            accAfter c w.render_distance
              (if chebDist c p ≤ w.render_distance then t else a0) (rest.take i) := by
          simp [accAfter]
        rw [hstep] at this
        exact this hfar)
    refine ⟨?_, ?_, ?_⟩
    · rw [hrun]
      exact ihres.1
    · rw [hrun, hacc]
      rw [hrd] at ihres
      exact ihres.2.1
    · intro i hi
      cases i with
      | zero =>
        simpa using h0.2.2.1
      | succ j =>
        have hj : j < rest.length := by simpa using Nat.lt_of_succ_lt_succ hi
        have := ihres.2.2 j hj
        simpa [runTicks] using this

/-- A small resident world for the C5 instance: one chunk at the origin,
render distance 1, grace period 5 seconds. -/
def demoWorld : World where
  chunks := [(0, 0, 0)]
  chunk_entities := [(0, 0, 0)]
  chunk_size := 16
  render_distance := 1
  last_player_chunk := (0, 0, 0)
  chunk_load_queue := []
  chunk_unload_queue := []
  chunk_last_accessed := [((0, 0, 0), 0)]
  unload_grace_period := 5
  meshing_tasks := []

/-- Concrete instance of the C5 theorem: the origin chunk leaves the want
cube at time 3 (observer at (5,0,0)) and re-enters at time 4, within the
5-second grace period, and stays resident. -/
theorem grace_reentry_no_unload_spot :
    ((0, 0, 0) : Coord) ∈
      (runTicks demoWorld [(((5, 0, 0) : Coord), (3 : Rat)),
        (((0, 0, 0) : Coord), (4 : Rat))]).chunks := by
  refine (grace_reentry_no_unload demoWorld (0, 0, 0) 0
    [(((5, 0, 0) : Coord), (3 : Rat)), (((0, 0, 0) : Coord), (4 : Rat))]
    (by decide) (by decide) (by decide) ?_).1
  intro i hi hfar
  simp only [List.length_cons, List.length_nil] at hi
  interval_cases i
  · simp only [List.getD_cons_zero, List.take_zero]
    show (3 : Rat) - accAfter (0, 0, 0) demoWorld.render_distance 0 [] ≤
      demoWorld.unload_grace_period
    have hacc : accAfter (0, 0, 0) demoWorld.render_distance 0 [] = 0 := rfl
    rw [hacc]
    show (3 : Rat) - 0 ≤ 5
    norm_num
  · exfalso
    revert hfar
    show ¬(demoWorld.render_distance < chebDist (0, 0, 0) (0, 0, 0))
    decide

/-- C9 amended: only the unload path is atomic: draining the unload queue
removes a queued coordinate from both the chunk map and the entity map in
the same process_queue call. -/
theorem process_queue_unload_removes_both (w : World) (c : Coord)
    (hc : c ∈ w.chunk_unload_queue) :
    c ∉ (process_queue w).chunks ∧ c ∉ (process_queue w).chunk_entities := by
  obtain ⟨p1, p2, _, _, _⟩ := process_queue_mem w c
  constructor
  · rw [p1]
    rintro ⟨_, hn⟩
    exact hn hc
  · rw [p2]
    rintro ⟨_, hn⟩
    exact hn hc

/-- Concrete instance of the C9 amended theorem. -/
theorem process_queue_unload_removes_both_spot :
    ((0, 0, 0) : Coord) ∉
      (process_queue { demoWorld with chunk_unload_queue := [(0, 0, 0)] }).chunks :=
  (process_queue_unload_removes_both
    { demoWorld with chunk_unload_queue := [(0, 0, 0)] } (0, 0, 0)
    (by decide)).1

/-- C9 counterexample: one settle tick from a fresh world loads the origin
chunk into the chunk map, but its renderable entity is only created when
the asynchronous meshing task later completes, so at the tick boundary the
chunk-data map and the entity map disagree at the origin coordinate. -/
theorem chunk_and_entity_maps_disagree :
    ¬(((0, 0, 0) : Coord) ∈
        (settleTick (World.new 16 1) ((0, 0, 0) : Coord) 0).chunk_entities ↔
      ((0, 0, 0) : Coord) ∈
        (settleTick (World.new 16 1) ((0, 0, 0) : Coord) 0).chunks) := by
  decide

end WorldNS

namespace Interaction

/-- An exact-rational 3-vector (modelling bevy Vec3). -/
abbrev QVec3 := Rat × Rat × Rat

/-- chunk.rs VOXEL_SIZE. -/
def VOXEL_SIZE : Rat := 1

/-- Componentwise vector sum. -/
def qadd (a b : QVec3) : QVec3 := (a.1 + b.1, a.2.1 + b.2.1, a.2.2 + b.2.2)

/-- Scalar multiple of a vector. -/
def qsmul (s : Rat) (v : QVec3) : QVec3 := (s * v.1, s * v.2.1, s * v.2.2)

/-- Vector negation. -/
def qneg (v : QVec3) : QVec3 := (-v.1, -v.2.1, -v.2.2)

/-- Rust f32::trunc (round toward zero). -/
def truncQ (q : Rat) : Int := if q < 0 then ⌈q⌉ else ⌊q⌋

/-- Rust f32::fract: x - x.trunc(). -/
def fractQ (q : Rat) : Rat := q - truncQ q

/-- Rust f32::rem_euclid for a positive modulus. -/
def remEuclid (x m : Rat) : Rat := x - m * ⌊x / m⌋

/-- Componentwise sum of integer coordinates. -/
def cadd (a b : Coord) : Coord := (a.1 + b.1, a.2.1 + b.2.1, a.2.2 + b.2.2)

/-- terrain.rs TerrainState (of the chunk.rs family), collapsed over the
entity indirection: the coordinate map holds the chunk data directly, and
chunks_to_update is the dirty-marking set.  Fields not touched by any
claim (chunks_to_remove, player_chunk) are omitted. -/
structure TerrainState where
  chunks : List (Coord × ChunkMod.Chunk)
  chunks_to_update : List Coord

/-- HashMap read into the chunk store. -/
def alookupC (m : List (Coord × ChunkMod.Chunk)) (k : Coord) : Option ChunkMod.Chunk :=
  (m.find? fun kv => decide (kv.1 = k)).map Prod.snd

/-- The 6 face-neighbor offsets of get_chunk_neighbors. -/
def neighborDirs : List Coord :=
  [(-1, 0, 0), (1, 0, 0), (0, -1, 0), (0, 1, 0), (0, 0, -1), (0, 0, 1)]

/-- interaction.rs get_chunk_neighbors. -/
def get_chunk_neighbors (m : List (Coord × ChunkMod.Chunk)) (chunk_pos : Coord) :
    Fin 6 → Option ChunkMod.Chunk :=
  fun i => alookupC m (cadd chunk_pos (neighborDirs.getD i.val (0, 0, 0)))

/-- interaction.rs calculate_hit_normal: pick the axis of the unit cell the
hit point is nearest to, disambiguated by the ray direction sign, falling
back to the reversed (normalized) ray direction.  ray_unit stands for
ray_direction.normalize() of the source. -/
def calculate_hit_normal (hit_pos ray_direction ray_unit : QVec3) : QVec3 :=
  let epsilon : Rat := 1 / 100
  let x := fractQ hit_pos.1
  let y := fractQ hit_pos.2.1
  let z := fractQ hit_pos.2.2
  if x < epsilon ∧ ray_direction.1 < 0 then (-1, 0, 0)
  else if x > 1 - epsilon ∧ ray_direction.1 > 0 then (1, 0, 0)
  else if y < epsilon ∧ ray_direction.2.1 < 0 then (0, -1, 0)
  else if y > 1 - epsilon ∧ ray_direction.2.1 > 0 then (0, 1, 0)
  else if z < epsilon ∧ ray_direction.2.2 < 0 then (0, 0, -1)
  else if z > 1 - epsilon ∧ ray_direction.2.2 > 0 then (0, 0, 1)
  else qneg ray_unit

/-- CHUNK_SIZE as f32 * VOXEL_SIZE: the world-space span of a chunk. -/
def chunkSpan : Rat := ((ChunkMod.CHUNK_SIZE : Int) : Rat) * VOXEL_SIZE

/-- The body of one raycast march step at sample point cur: resolve the
chunk coordinate (y chunking fixed at 0), look up the chunk, resolve the
local voxel coordinate, and report a hit with its normal when the sample
is solid. -/
def sampleHit (ts : TerrainState) (dirRaw dirUnit : QVec3) (cur : QVec3) :
    Option (Coord × Coord × QVec3) :=
  let chunk_pos : Coord := (⌊cur.1 / chunkSpan⌋, 0, ⌊cur.2.2 / chunkSpan⌋)
  match alookupC ts.chunks chunk_pos with
  | none => none
  | some ch =>
    let local_pos : Coord :=
      (⌊remEuclid cur.1 chunkSpan / VOXEL_SIZE⌋, ⌊cur.2.1⌋,
       ⌊remEuclid cur.2.2 chunkSpan / VOXEL_SIZE⌋)
    let neighbors := get_chunk_neighbors ts.chunks chunk_pos
    if ChunkMod.is_voxel_solid_raycast ch local_pos.1 local_pos.2.1 local_pos.2.2
        neighbors then
      some (chunk_pos, local_pos, calculate_hit_normal cur dirRaw dirUnit)
    else
      none

/-- The march step length of interaction.rs raycast (0.01). -/
def rstep : Rat := 1 / 100

/-- The fixed-step march: advance, sample, stop at the first solid hit. -/
def raycastLoop (ts : TerrainState) (dirRaw dirUnit : QVec3) :
    Nat → QVec3 → Option (Coord × Coord × QVec3)
  | 0, _ => none
  | n + 1, pos =>
    let cur := qadd pos (qsmul rstep dirUnit)
    match sampleHit ts dirRaw dirUnit cur with
    | some h => some h
    | none => raycastLoop ts dirRaw dirUnit n cur

/-- interaction.rs raycast: march (max_distance / step) fixed steps from
the origin.  dirUnit stands for direction.normalize() of the source (exact
for the axis-aligned scenario); dirRaw is the raw direction used for the
sign tests of calculate_hit_normal. -/
def raycast (origin dirRaw dirUnit : QVec3) (max_distance : Rat)
    (ts : TerrainState) : Option (Coord × Coord × QVec3) :=
  raycastLoop ts dirRaw dirUnit (⌊max_distance / rstep⌋).toNat origin

/-- The k-th sample position of the march. -/
def nthPos (pos delta : QVec3) (k : Nat) : QVec3 := qadd pos (qsmul (k : Rat) delta)

/-- interaction.rs remove_voxel: clear the voxel, mark the edited chunk
for update, and mark the face-adjacent neighbor coordinates whose shared
boundary the voxel lies on (tested against the CHUNK_SIZE extremes). -/
def remove_voxel (ts : TerrainState) (chunk_pos voxel_pos : Coord) : TerrainState :=
  match alookupC ts.chunks chunk_pos with
  | none => ts
  | some ch =>
    let ch2 := ChunkMod.remove_voxel ch voxel_pos.1 voxel_pos.2.1 voxel_pos.2.2
    let u0 := ts.chunks_to_update.insert chunk_pos
    let u1 := if voxel_pos.1 = 0 then u0.insert (cadd chunk_pos (-1, 0, 0)) else u0
    let u2 := if voxel_pos.1 = ChunkMod.CHUNK_SIZE - 1 then
      u1.insert (cadd chunk_pos (1, 0, 0)) else u1
    let u3 := if voxel_pos.2.1 = 0 then u2.insert (cadd chunk_pos (0, -1, 0)) else u2
    let u4 := if voxel_pos.2.1 = ChunkMod.CHUNK_SIZE - 1 then
      u3.insert (cadd chunk_pos (0, 1, 0)) else u3
    let u5 := if voxel_pos.2.2 = 0 then u4.insert (cadd chunk_pos (0, 0, -1)) else u4
    let u6 := if voxel_pos.2.2 = ChunkMod.CHUNK_SIZE - 1 then
      u5.insert (cadd chunk_pos (0, 0, 1)) else u5
    { chunks := ts.chunks.map fun kv => if kv.1 = chunk_pos then (chunk_pos, ch2) else kv,
      chunks_to_update := u6 }

/-- One conditional marking step of remove_voxel: insert the target
coordinate into the update set when the boundary test holds. -/
def markStep (c : Prop) [Decidable c] (l : List Coord) (t : Coord) : List Coord :=
  if c then l.insert t else l

theorem mem_markStep {c : Prop} [Decidable c] {l : List Coord} {t x : Coord}
    (h : x ∈ l) : x ∈ markStep c l t := by
  unfold markStep
  split_ifs
  · exact List.mem_insert_of_mem h
  · exact h

theorem markStep_self {c : Prop} [Decidable c] {l : List Coord} {t : Coord}
    (hc : c) : t ∈ markStep c l t := by
  unfold markStep
  rw [if_pos hc]
  exact List.mem_insert_self t l

theorem alookupC_some_mem_keys {m : List (Coord × ChunkMod.Chunk)} {k : Coord}
    {ch : ChunkMod.Chunk} (h : alookupC m k = some ch) : k ∈ m.map Prod.fst := by
  unfold alookupC at h
  cases hf : m.find? (fun kv => decide (kv.1 = k)) with
  | none => rw [hf] at h; simp at h
  | some kv =>
    have hmem := List.mem_of_find?_eq_some hf
    have hp := List.find?_some hf
    simp only [decide_eq_true_eq] at hp
    rw [← hp]
    exact List.mem_map_of_mem Prod.fst hmem

/-- C7: remove_voxel marks the edited chunk for update, and every chunk
sharing the boundary face on which the removed voxel lies is marked too.
For the x, z and bottom-y faces the neighbor coordinate is inserted
outright; for the top-y face the claim holds over the resident chunks,
which in this column-streaming world all sit at y = 0, so no chunk shares
that face.  In particular removing the voxel at local x = 0 of chunk
(0,0,0) marks chunk (-1,0,0). -/
theorem remove_voxel_marks_face_neighbors (ts : TerrainState) (cpos vpos : Coord)
    (ch : ChunkMod.Chunk)
    (hY : ∀ kv ∈ ts.chunks, kv.1.2.1 = 0)
    (hch : alookupC ts.chunks cpos = some ch)
    (hw : ch.width = 16) (hd : ch.depth = 16) :
    cpos ∈ (remove_voxel ts cpos vpos).chunks_to_update ∧
    (vpos.1 = 0 → cadd cpos (-1, 0, 0) ∈ (remove_voxel ts cpos vpos).chunks_to_update) ∧
    (vpos.1 = (ch.width : Int) - 1 →
      cadd cpos (1, 0, 0) ∈ (remove_voxel ts cpos vpos).chunks_to_update) ∧
    (vpos.2.1 = 0 → cadd cpos (0, -1, 0) ∈ (remove_voxel ts cpos vpos).chunks_to_update) ∧
    (vpos.2.1 = (ch.height : Int) - 1 →
      ∀ q ∈ ts.chunks.map Prod.fst, q = cadd cpos (0, 1, 0) →
        q ∈ (remove_voxel ts cpos vpos).chunks_to_update) ∧
    (vpos.2.2 = 0 → cadd cpos (0, 0, -1) ∈ (remove_voxel ts cpos vpos).chunks_to_update) ∧
    (vpos.2.2 = (ch.depth : Int) - 1 →
      cadd cpos (0, 0, 1) ∈ (remove_voxel ts cpos vpos).chunks_to_update) := by
  have hcy : cpos.2.1 = 0 := by
    have hmem := alookupC_some_mem_keys hch
    simp only [List.mem_map] at hmem
    obtain ⟨kv, hkv, hfst⟩ := hmem
    rw [← hfst]
    exact hY kv hkv
  have hupd : (remove_voxel ts cpos vpos).chunks_to_update =
      markStep (vpos.2.2 = ChunkMod.CHUNK_SIZE - 1)
        (markStep (vpos.2.2 = 0)
          (markStep (vpos.2.1 = ChunkMod.CHUNK_SIZE - 1)
            (markStep (vpos.2.1 = 0)
              (markStep (vpos.1 = ChunkMod.CHUNK_SIZE - 1)
                (markStep (vpos.1 = 0)
                  (ts.chunks_to_update.insert cpos)
                  (cadd cpos (-1, 0, 0)))
                (cadd cpos (1, 0, 0)))
              (cadd cpos (0, -1, 0)))
            (cadd cpos (0, 1, 0)))
          (cadd cpos (0, 0, -1)))
        (cadd cpos (0, 0, 1)) := by
    unfold remove_voxel markStep
    rw [hch]
  rw [hupd]
  refine ⟨?_, ?_, ?_, ?_, ?_, ?_, ?_⟩
  · exact mem_markStep (mem_markStep (mem_markStep (mem_markStep (mem_markStep
      (mem_markStep (List.mem_insert_self cpos ts.chunks_to_update))))))
  · intro h0
    exact mem_markStep (mem_markStep (mem_markStep (mem_markStep (mem_markStep
      (markStep_self h0)))))
  · intro h0
    have h0c : vpos.1 = ChunkMod.CHUNK_SIZE - 1 := by
      rw [h0, hw]
      unfold ChunkMod.CHUNK_SIZE
      norm_num
    exact mem_markStep (mem_markStep (mem_markStep (mem_markStep
      (markStep_self h0c))))
  · intro h0
    exact mem_markStep (mem_markStep (mem_markStep (markStep_self h0)))
  · intro _ q hq hqe
    exfalso
    have hqy : q.2.1 = 0 := by
      simp only [List.mem_map] at hq
      obtain ⟨kv, hkv, hfst⟩ := hq
      rw [← hfst]
      exact hY kv hkv
    rw [hqe] at hqy
    simp only [cadd] at hqy
    omega
  · intro h0
    exact mem_markStep (markStep_self h0)
  · intro h0
    have h0c : vpos.2.2 = ChunkMod.CHUNK_SIZE - 1 := by
      rw [h0, hd]
      unfold ChunkMod.CHUNK_SIZE
      norm_num
    exact markStep_self h0c

/-- A resident 16 x 1 x 16 all-solid chunk at (0,0,0) for the C7 instance. -/
def editChunk : ChunkMod.Chunk where
  position := (0, 0, 0)
  width := 16
  height := 1
  depth := 16
  voxels := List.replicate 256 true
  dirty := false

/-- Concrete instance of the C7 theorem: removing the voxel at local x = 0
of chunk (0,0,0) marks (-1,0,0) for update in addition to (0,0,0). -/
theorem remove_voxel_marks_face_neighbors_spot :
    ((0, 0, 0) : Coord) ∈
      (remove_voxel ⟨[(((0, 0, 0) : Coord), editChunk)], []⟩ (0, 0, 0)
        (0, 0, 5)).chunks_to_update ∧
    ((-1, 0, 0) : Coord) ∈
      (remove_voxel ⟨[(((0, 0, 0) : Coord), editChunk)], []⟩ (0, 0, 0)
        (0, 0, 5)).chunks_to_update := by
  have h := remove_voxel_marks_face_neighbors
    ⟨[(((0, 0, 0) : Coord), editChunk)], []⟩ (0, 0, 0) (0, 0, 5) editChunk
    (by decide) rfl rfl rfl
  exact ⟨h.1, by simpa [cadd] using h.2.1 rfl⟩

theorem nthPos_one (pos delta : QVec3) : nthPos pos delta (0 + 1) = qadd pos delta := by
  unfold nthPos qadd qsmul
  refine Prod.ext ?_ (Prod.ext ?_ ?_) <;> (simp only; push_cast; ring)

theorem nthPos_shift (pos delta : QVec3) (k : Nat) :
    nthPos (qadd pos delta) delta (k + 1) = nthPos pos delta (k + 1 + 1) := by
  unfold nthPos qadd qsmul
  refine Prod.ext ?_ (Prod.ext ?_ ?_) <;> (simp only; push_cast; ring)

theorem raycastLoop_eq_findSome (ts : TerrainState) (dirRaw dirUnit : QVec3) :
    ∀ (n : Nat) (pos : QVec3),
      raycastLoop ts dirRaw dirUnit n pos =
        (List.range n).findSome? (fun k =>
          sampleHit ts dirRaw dirUnit (nthPos pos (qsmul rstep dirUnit) (k + 1))) := by
  intro n
  induction n with
  | zero => intro pos; rfl
  | succ m ih =>
    intro pos
    rw [List.range_succ_eq_map, List.findSome?_cons]
    simp only [raycastLoop, nthPos_one]
    cases hs : sampleHit ts dirRaw dirUnit (qadd pos (qsmul rstep dirUnit)) with
    | some h => rfl
    | none =>
      simp only
      rw [ih (qadd pos (qsmul rstep dirUnit)), List.findSome?_map]
      congr 1
      funext k
      simp only [Function.comp]
      rw [nthPos_shift]

theorem findSome?_range_eq {α : Type} (f : Nat → Option α) (v : α) :
    ∀ (n i : Nat), i < n → (∀ j, j < i → f j = none) → f i = some v →
      (List.range n).findSome? f = some v := by
  intro n
  induction n with
  | zero => intro i hi; omega
  | succ m ih =>
    intro i hi hnone hsome
    rw [List.range_succ, List.findSome?_append]
    rcases Nat.lt_or_ge i m with him | him
    · rw [ih i him hnone hsome]
      rfl
    · obtain rfl : m = i := by omega
      have hnone2 : (List.range m).findSome? f = none := by
        rw [List.findSome?_eq_none_iff]
        intro x hx
        exact hnone x (List.mem_range.mp hx)
      rw [hnone2, List.findSome?_cons, hsome]
      rfl

/-- The single solid 1 x 1 x 1 voxel at local (0,0,0) of chunk (0,0,0), in
a 16 x 64 x 16 chunk as constructed by this family. -/
def scenarioChunk : ChunkMod.Chunk where
  position := (0, 0, 0)
  width := 16
  height := 64
  depth := 16
  voxels := true :: List.replicate 16383 false
  dirty := false

/-- The raycast scenario world: only chunk (0,0,0) exists. -/
def scenarioState : TerrainState where
  chunks := [((0, 0, 0), scenarioChunk)]
  chunks_to_update := []

theorem chunkSpan_eq : chunkSpan = 16 := by
  unfold chunkSpan VOXEL_SIZE ChunkMod.CHUNK_SIZE
  norm_num

theorem scenPos (j : Nat) :
    nthPos ((-5 : Rat), 1 / 2, 1 / 2) ((1 / 100 : Rat), 0, 0) (j + 1) =
      ((-5 : Rat) + ((j : Rat) + 1) / 100, 1 / 2, 1 / 2) := by
  unfold nthPos qadd qsmul
  refine Prod.ext ?_ (Prod.ext ?_ ?_) <;> (simp only; push_cast; ring)

theorem scenDelta : qsmul rstep ((1 : Rat), 0, 0) = ((1 / 100 : Rat), 0, 0) := by
  unfold qsmul rstep
  norm_num

theorem scenNone (j : Nat) (hj : j < 499) :
    sampleHit scenarioState (1, 0, 0) (1, 0, 0)
      ((-5 : Rat) + ((j : Rat) + 1) / 100, 1 / 2, 1 / 2) = none := by
  have hj498 : (j : Rat) ≤ 498 := by exact_mod_cast Nat.le_of_lt_succ hj
  have hj0 : (0 : Rat) ≤ (j : Rat) := Nat.cast_nonneg j
  have hx : (⌊((-5 : Rat) + ((j : Rat) + 1) / 100) / chunkSpan⌋ : Int) = -1 := by
    rw [chunkSpan_eq, Int.floor_eq_iff]
    constructor
    · rw [show ((-1 : Int) : Rat) = -1 by norm_num]
      rw [le_div_iff₀ (by norm_num : (0 : Rat) < 16)]
      linarith
    · rw [show ((-1 : Int) : Rat) + 1 = 0 by norm_num]
      rw [div_lt_iff₀ (by norm_num : (0 : Rat) < 16)]
      linarith
  unfold sampleHit
  simp only
  rw [hx]
  have hlook : alookupC scenarioState.chunks
      (-1, 0, ⌊(1 / 2 : Rat) / chunkSpan⌋) = none := by
    unfold alookupC scenarioState
    simp only
    rw [List.find?_cons_of_neg _ (by simp [Prod.ext_iff])]
    rfl
  rw [hlook]

theorem scenPos499 :
    nthPos ((-5 : Rat), 1 / 2, 1 / 2) ((1 / 100 : Rat), 0, 0) (499 + 1) =
      ((0 : Rat), 1 / 2, 1 / 2) := by
  unfold nthPos qadd qsmul
  refine Prod.ext ?_ (Prod.ext ?_ ?_) <;> (simp only; push_cast; norm_num)

theorem scenHit :
    sampleHit scenarioState (1, 0, 0) (1, 0, 0) ((0 : Rat), 1 / 2, 1 / 2) =
      some (((0, 0, 0) : Coord), ((0, 0, 0) : Coord), ((-1 : Rat), 0, 0)) := by
  have hf0 : (⌊(0 : Rat) / chunkSpan⌋ : Int) = 0 := by
    rw [chunkSpan_eq]
    norm_num
  have hfz : (⌊(1 / 2 : Rat) / chunkSpan⌋ : Int) = 0 := by
    rw [chunkSpan_eq, Int.floor_eq_iff]
    constructor
    · norm_num
    · norm_num
  have hlook : alookupC scenarioState.chunks ((0 : Int), 0, 0) = some scenarioChunk := rfl
  have hlx : (⌊remEuclid (0 : Rat) chunkSpan / VOXEL_SIZE⌋ : Int) = 0 := by
    rw [chunkSpan_eq]
    unfold remEuclid VOXEL_SIZE
    norm_num
  have hly : (⌊(1 / 2 : Rat)⌋ : Int) = 0 := by norm_num
  have hlz : (⌊remEuclid (1 / 2 : Rat) chunkSpan / VOXEL_SIZE⌋ : Int) = 0 := by
    rw [chunkSpan_eq]
    unfold remEuclid VOXEL_SIZE
    rw [show ⌊(1 / 2 : Rat) / 16⌋ = 0 from by rw [← chunkSpan_eq]; exact hfz]
    norm_num
  have hsolid : ChunkMod.is_voxel_solid_raycast scenarioChunk 0 0 0
      (get_chunk_neighbors scenarioState.chunks ((0 : Int), 0, 0)) = true := by
    unfold ChunkMod.is_voxel_solid_raycast
    rw [if_pos (by constructor <;> norm_num [scenarioChunk])]
    rfl
  have hnorm : calculate_hit_normal ((0 : Rat), 1 / 2, 1 / 2) (1, 0, 0) (1, 0, 0) =
      ((-1 : Rat), 0, 0) := by
    unfold calculate_hit_normal fractQ truncQ qneg
    norm_num
  unfold sampleHit
  simp only
  rw [hf0, hfz, hlook]
  simp only
  rw [hlx, hly, hlz, hsolid]
  simp only [if_true]
  rw [hnorm]

/-- C6: the raycast scenario from the spec hits the single solid voxel:
from origin (-5, 1/2, 1/2) along +x with max distance 10 the march hits
chunk (0,0,0), local voxel (0,0,0), with normal (-1,0,0); and in general
the march equals the first solid sample over the fixed-step sample
sequence (the first hit determines the returned chunk and voxel coordinate
and the face normal). -/
theorem raycast_first_hit :
    (raycast ((-5 : Rat), 1 / 2, 1 / 2) (1, 0, 0) (1, 0, 0) 10 scenarioState =
      some (((0, 0, 0) : Coord), ((0, 0, 0) : Coord), ((-1 : Rat), 0, 0))) ∧
    (∀ (origin dirRaw dirUnit : QVec3) (max_distance : Rat) (ts : TerrainState),
      raycast origin dirRaw dirUnit max_distance ts =
        (List.range (⌊max_distance / rstep⌋).toNat).findSome? (fun k =>
          sampleHit ts dirRaw dirUnit
            (nthPos origin (qsmul rstep dirUnit) (k + 1)))) := by
  have hgen : ∀ (origin dirRaw dirUnit : QVec3) (max_distance : Rat)
      (ts : TerrainState),
      raycast origin dirRaw dirUnit max_distance ts =
        (List.range (⌊max_distance / rstep⌋).toNat).findSome? (fun k =>
          sampleHit ts dirRaw dirUnit
            (nthPos origin (qsmul rstep dirUnit) (k + 1))) := by
    intro origin dirRaw dirUnit max_distance ts
    unfold raycast
    exact raycastLoop_eq_findSome ts dirRaw dirUnit _ origin
  refine ⟨?_, hgen⟩
  rw [hgen]
  have hfuel : ((⌊(10 : Rat) / rstep⌋ : Int)).toNat = 1000 := by
    have h1 : (10 : Rat) / rstep = 1000 := by
      unfold rstep
      norm_num
    have h2 : (⌊(1000 : Rat)⌋ : Int) = 1000 := by norm_num
    rw [h1, h2]
    rfl
  rw [hfuel]
  apply findSome?_range_eq _ _ 1000 499 (by norm_num)
  · intro j hj
    simp only [scenDelta, scenPos]
    exact scenNone j hj
  · simp only [scenDelta, scenPos499]
    exact scenHit

end Interaction

end VoxelFun
